import Mathlib

/-!
# k8mc: the content migration script `k8mc.go`

A shallow embedding of the text fixers of `work/scripts/k8-migrate-content/k8mc.go`
and of the small part of Go's `regexp`, `strings`, `bufio` and `path/filepath`
packages that these fixers call, followed by the theorems on them.

Conventions of the embedding.

* Go strings are modelled as `List Char` (`Str`): the texts are taken to be valid
  UTF-8, so a rune of Go is a `Char` here. Every pattern of the program is ASCII.
  Where Go counts bytes (the buffer of `bufio.Scanner`), the UTF-8 length is used.
* A Go function returning `(string, error)` returns a pair `Str × Option Err`.
* A run-time panic of the Go code (indexing a nil slice) is the value `none` of an
  `Option` result.
* The functions of package `time` are parameters of `fixDates`.
* The tables of package `unicode` are not embedded. The test
  `unicode.IsLetter(r) || unicode.IsDigit(r)` on the runes outside ASCII is a
  parameter `uni` of the functions that expand a replacement template.
-/

namespace K8mc

/-- Go strings, as lists of runes. -/
abbrev Str := List Char

/-- Go `error` values, identified with their message. -/
abbrev Err := Str

/-! ## Package `strings` -/

/-- The function `strings.HasPrefix` seen as a cut: `cutPrefix l s` is the rest of `s`
after the leading `l`, if `s` starts with `l`. -/
def cutPrefix : Str → Str → Option Str
  | [], s => some s
  | _ :: _, [] => none
  | a :: l, b :: s => if a = b then cutPrefix l s else none

/-- The function `strings.Contains`. -/
def contains : Str → Str → Bool
  | [], sub => (cutPrefix sub []).isSome
  | c :: s, sub => (cutPrefix sub (c :: s)).isSome || contains s sub

/-- The function `strings.HasSuffix`. -/
def hasSuffix (s suffix : Str) : Bool :=
  (cutPrefix suffix.reverse s.reverse).isSome

/-- The call `strings.Replace(s, old, new, 1)` for a non-empty `old`: the first
occurrence of `old` in `s` is replaced by `new`. -/
def replaceFirst (old new : Str) : Str → Str
  | [] => []
  | c :: s =>
    match cutPrefix old (c :: s) with
    | some rest => new ++ rest
    | none => c :: replaceFirst old new s

/-- The predicate `unicode.IsSpace`: the runes with the Unicode property White Space. -/
def isUnicodeSpace (c : Char) : Bool :=
  let n := c.toNat
  (9 ≤ n && n ≤ 13) || n = 32 || n = 0x85 || n = 0xA0 || n = 0x1680 ||
  (0x2000 ≤ n && n ≤ 0x200a) || n = 0x2028 || n = 0x2029 || n = 0x202f ||
  n = 0x205f || n = 0x3000

/-- The function `strings.TrimSpace`. -/
def trimSpace (s : Str) : Str :=
  ((s.dropWhile isUnicodeSpace).reverse.dropWhile isUnicodeSpace).reverse

/-! ## Package `regexp`

The patterns of the program are sequences of literals, starred or optional
character classes and the end anchor, where a capture group always encloses
exactly one of these pieces. The matcher below is the backtracking matcher for
such sequences; it returns the match that Go's leftmost-first semantics selects.
-/

/-- The class `\s` of Go's regexp syntax: `[\t\n\f\r ]`. -/
def isPerlSpace (c : Char) : Bool :=
  c = '\t' || c = '\n' || c = Char.ofNat 12 || c = '\r' || c = ' '

/-- The class `.` under the flag `s`: every rune. -/
def dotAll (_ : Char) : Bool := true

/-- The class `.` without flags: every rune but the line feed. -/
def dot (c : Char) : Bool := !(c = '\n')

/-- One piece of a pattern. -/
inductive Atom where
  /-- a literal text -/
  | lit (s : Str)
  /-- one rune of a character class -/
  | one (p : Char → Bool)
  /-- a greedy star `p*` over a character class -/
  | star (p : Char → Bool)
  /-- a lazy star `p*?` over a character class -/
  | lazyStar (p : Char → Bool)
  /-- a greedy option `p?` over a character class -/
  | opt (p : Char → Bool)
  /-- the anchor `$` (end of text, no flag `m`) -/
  | eot

/-- A piece of a pattern, with the flag saying whether a capture group encloses it. -/
structure Node where
  cap : Bool
  atom : Atom

/-- A pattern: its pieces in order. The capture groups are numbered from 1 in the
order of the pieces. -/
abbrev Regex := List Node

/-- A piece outside any group. -/
def plain (a : Atom) : Node := ⟨false, a⟩

/-- A piece enclosed in a capture group. -/
def group (a : Atom) : Node := ⟨true, a⟩

/-- A match of a pattern at the start of a text. -/
structure Match where
  /-- the matched text (submatch 0) -/
  whole : Str
  /-- the texts of the capture groups (submatches 1, 2, ...) -/
  groups : List Str
  /-- the text after the match -/
  rest : Str
deriving DecidableEq

/-- Put the text of a piece in front of the match of the pieces after it. -/
def Match.push (cap : Bool) (piece : Str) (m : Match) : Match :=
  { whole := piece ++ m.whole
    groups := if cap then piece :: m.groups else m.groups
    rest := m.rest }

/-- Submatch `i` of a match, the way `m[i]` reads it for an `i` in range. -/
def Match.sub (m : Match) : Nat → Str
  | 0 => m.whole
  | i + 1 => m.groups.getD i []

/-- Greedy star: take as many runes of the class as possible, and give runes back
one by one until the continuation `k` matches. `acc` is what the star holds so far. -/
def starGreedy (p : Char → Bool) (cap : Bool) (k : Str → Option Match) :
    Str → Str → Option Match
  | acc, [] => (k []).map (Match.push cap acc)
  | acc, c :: s =>
    if p c then
      match starGreedy p cap k (acc ++ [c]) s with
      | some m => some m
      | none => (k (c :: s)).map (Match.push cap acc)
    else (k (c :: s)).map (Match.push cap acc)

/-- Lazy star: take as few runes of the class as possible, and take one more each
time the continuation `k` does not match. -/
def starLazy (p : Char → Bool) (cap : Bool) (k : Str → Option Match) :
    Str → Str → Option Match
  | acc, [] => (k []).map (Match.push cap acc)
  | acc, c :: s =>
    match k (c :: s) with
    | some m => some (m.push cap acc)
    | none => if p c then starLazy p cap k (acc ++ [c]) s else none

/-- The preferred match of a pattern at the start of a text, if there is one. -/
def matchHere : Regex → Str → Option Match
  | [], s => some ⟨[], [], s⟩
  | ⟨cap, .lit l⟩ :: r, s =>
    match cutPrefix l s with
    | some s1 => (matchHere r s1).map (Match.push cap l)
    | none => none
  | ⟨cap, .one p⟩ :: r, s =>
    match s with
    | [] => none
    | c :: s1 => if p c then (matchHere r s1).map (Match.push cap [c]) else none
  | ⟨cap, .star p⟩ :: r, s => starGreedy p cap (matchHere r) [] s
  | ⟨cap, .lazyStar p⟩ :: r, s => starLazy p cap (matchHere r) [] s
  | ⟨cap, .opt p⟩ :: r, s =>
    match s with
    | [] => (matchHere r []).map (Match.push cap [])
    | c :: s1 =>
      if p c then
        match matchHere r s1 with
        | some m => some (m.push cap [c])
        | none => (matchHere r (c :: s1)).map (Match.push cap [])
      else (matchHere r (c :: s1)).map (Match.push cap [])
  | ⟨cap, .eot⟩ :: r, s =>
    match s with
    | [] => (matchHere r []).map (Match.push cap [])
    | _ :: _ => none

/-- A match somewhere in a text: the text before it and the match. -/
structure Found where
  pre : Str
  m : Match
deriving DecidableEq

/-- The leftmost match of a pattern in a text; `pre` is the text already passed. -/
def findFrom (re : Regex) : Str → Str → Option Found
  | pre, [] => (matchHere re []).map (Found.mk pre)
  | pre, c :: s =>
    match matchHere re (c :: s) with
    | some m => some ⟨pre, m⟩
    | none => findFrom re (pre ++ [c]) s

/-- The leftmost match of a pattern in a text (`FindStringSubmatch`): `none` is the
nil slice of Go. -/
def find (re : Regex) (s : Str) : Option Found := findFrom re [] s

/-- The method `MatchString`. -/
def matchString (re : Regex) (s : Str) : Bool := (find re s).isSome

/-- The runes of a group name in a replacement template, as `extract` of `regexp`
tests them: `unicode.IsLetter(r) || unicode.IsDigit(r) || r == '_'`. On ASCII the
letters are `A-Z` and `a-z` and the digits `0-9`; on the other runes the test of the
Unicode tables is the parameter `uni`. -/
def isNameRune (uni : Char → Bool) (c : Char) : Bool :=
  if c.toNat < 128 then c.isAlphanum || c = '_' else uni c

/-- The number a group name denotes in a template, as `extract` of `regexp` computes
it: `none` when a rune is not a digit, when the number read so far has reached
`10^8`, or when the name has a leading zero. -/
def nameNumber (name : Str) : Option Nat :=
  if name.head? = some '0' && 1 < name.length then none
  else
    name.foldl
      (fun acc c =>
        match acc with
        | none => none
        | some n => if !c.isDigit || 10 ^ 8 ≤ n then none else some (n * 10 + (c.toNat - 48)))
      (some 0)

/-- The text a template reference `$name` stands for. The patterns of the program
have no named group, so a name that is not a number stands for the empty text. -/
def reference (m : Match) (name : Str) : Str :=
  match nameNumber name with
  | some i => m.sub i
  | none => []

/-- The method `Expand` on a template: `$$` is a dollar sign, `$name` and
`${name}` are the submatch of that name, and a dollar sign that starts no
reference stays as it is. The first argument bounds the number of steps;
`expand` gives it the length of the template. -/
def expandAux (uni : Char → Bool) (m : Match) : Nat → Str → Str
  | 0, t => t
  | fuel + 1, t =>
    match t with
    | [] => []
    | '$' :: '$' :: t1 => '$' :: expandAux uni m fuel t1
    | '$' :: '\x7b' :: t1 =>
      let name := t1.takeWhile (isNameRune uni)
      match name, t1.dropWhile (isNameRune uni) with
      | _ :: _, '\x7d' :: t2 => reference m name ++ expandAux uni m fuel t2
      | _, _ => '$' :: expandAux uni m fuel ('\x7b' :: t1)
    | '$' :: t1 =>
      let name := t1.takeWhile (isNameRune uni)
      match name with
      | [] => '$' :: expandAux uni m fuel t1
      | _ :: _ => reference m name ++ expandAux uni m fuel (t1.dropWhile (isNameRune uni))
    | c :: t1 => c :: expandAux uni m fuel t1

/-- The replacement text of a match for a template. -/
def expand (uni : Char → Bool) (m : Match) (template : Str) : Str :=
  expandAux uni m (template.length + 1) template

/-- A text cut by the matches of a pattern: the stretches without match, and the
matches that get replaced. -/
inductive Piece where
  | text (t : Str)
  | hit (m : Match)
deriving DecidableEq

/-- The loop of `replaceAll`: the matches of the pattern, leftmost first and without
overlap, and the text between them. `adj` says that the previous match ended right
here: an empty match at that place is not replaced. After an empty match the
search moves on by one rune. The first argument bounds the number of matches;
`pieces` gives it more than the length of the text. -/
def piecesAux (re : Regex) : Nat → Bool → Str → List Piece
  | 0, _, s => [.text s]
  | fuel + 1, adj, s =>
    match find re s with
    | none => [.text s]
    | some f =>
      if f.m.whole = [] then
        .text f.pre :: ((if adj && f.pre = [] then [] else [.hit f.m]) ++
          (match f.m.rest with
           | [] => []
           | c :: r => .text [c] :: piecesAux re fuel false r))
      else .text f.pre :: .hit f.m :: piecesAux re fuel true f.m.rest

/-- The matches of a pattern in a text, with the text around them. -/
def pieces (re : Regex) (src : Str) : List Piece :=
  piecesAux re (src.length + 1) false src

/-- The method `ReplaceAllString`: every match is replaced by the expansion of the
template. -/
def replaceAllString (uni : Char → Bool) (re : Regex) (src template : Str) : Str :=
  ((pieces re src).map
    (fun p => match p with
      | .text t => t
      | .hit m => expand uni m template)).flatten

/-- The method `ReplaceAllStringFunc` for a function that reads and writes a captured
variable of type `σ` and may panic: the function is called on the text of each
match, in order. -/
def replaceAllStringFunc {σ : Type} (re : Regex) (src : Str)
    (repl : σ → Str → Option (Str × σ)) (init : σ) : Option (Str × σ) :=
  (pieces re src).foldl
    (fun acc p =>
      match acc with
      | none => none
      | some (out, st) =>
        match p with
        | .text t => some (out ++ t, st)
        | .hit m =>
          match repl st m.whole with
          | none => none
          | some (r, st1) => some (out ++ r, st1))
    (some ([], init))

/-! ## Front matter -/

/-- The pattern `frontmatterRe`: `(?s)---\n(.*)\n---(\n?)`. -/
def frontmatterRe : Regex :=
  [plain (.lit "---\n".toList), group (.star dotAll), plain (.lit "\n---".toList),
   group (.opt (fun c => c = '\n'))]

/-- The function `appendToFrontMatter`: the template is the text `---\n$1\n`, the
addition, and `\n---$2`. -/
def appendToFrontMatter (uni : Char → Bool) (src addition : Str) : Str :=
  replaceAllString uni frontmatterRe src
    ("---\n$1\n".toList ++ addition ++ "\n---$2".toList)

/-! ## The fixer chain and the file rewriter -/

/-- The type `contentFixer`: from a path and a text to a text and an error. -/
abbrev contentFixer := Str → Str → Str × Option Err

/-- The type `contentFixers`. -/
abbrev contentFixers := List contentFixer

/-- The method `contentFixers.fix`: the fixers run in order, each on the text of the
one before; at the first error the method returns the empty text and that error. -/
def contentFixers.fix : contentFixers → Str → Str → Str × Option Err
  | [], _, s => (s, none)
  | fixer :: f, path, s =>
    match fixer path s with
    | (_, some err) => ([], some err)
    | (s1, none) => contentFixers.fix f path s1

/-- An `io.Reader` read to its end: the bytes it delivers and the error that stops
the reading, if it is not the end of the data. -/
structure Reader where
  data : Str
  err : Option Err

/-- An `io.Writer`: for a text to write, the part that reaches the output and the
error of the write. -/
abbrev Writer := Str → Str × Option Err

/-- What a call of `mover.replace` does: the bytes that reach `out`, the lines
printed by `log.Printf`, and the returned error. -/
structure Replaced where
  written : Str
  logged : List Str
  err : Option Err
deriving DecidableEq

/-- The method `mover.replace`. The input is copied into a buffer; when the replacer
fails, the path and the error are logged and the buffer itself is copied to the
output, otherwise the replacer's text is. -/
def replace (path : Str) (inp : Reader) (out : Writer) (replacer : contentFixer) :
    Replaced :=
  match inp.err with
  | some e => ⟨[], [], some e⟩
  | none =>
    let buff := inp.data
    match replacer path buff with
    | (_, some err) =>
      let w := out buff
      ⟨w.1, [path ++ "\t".toList ++ err ++ "\n".toList], w.2⟩
    | (fixed, none) =>
      let w := out fixed
      ⟨w.1, [], w.2⟩

/-! ## Callouts -/

/-- The function `dropCR` of `bufio`: a line without its final carriage return. -/
def dropCR (l : Str) : Str :=
  if l.getLast? = some '\r' then l.dropLast else l

/-- The constant `bufio.MaxScanTokenSize`: the size of the buffer of a scanner. -/
def maxScanTokenSize : Nat := 64 * 1024

/-- The number of bytes of a text in UTF-8. -/
def utf8Len (s : Str) : Nat := (s.map Char.utf8Size).sum

/-- The tokens of a `bufio.Scanner` with the split function `ScanLines`: the text is
cut at every line feed, a final text without line feed is a line too, and every
line loses one trailing carriage return. `acc` is the line read so far. A line
that fills the buffer of the scanner, `maxScanTokenSize` bytes or more before its
line feed, ends the scan: `Scan` returns false there, and the loop of the caller
stops without looking at the error. -/
def scanLinesAux : Str → Str → List Str
  | acc, [] =>
    if acc = [] then []
    else if maxScanTokenSize ≤ utf8Len acc then []
    else [dropCR acc]
  | acc, c :: s =>
    if c = '\n' then
      if maxScanTokenSize ≤ utf8Len acc then [] else dropCR acc :: scanLinesAux [] s
    else scanLinesAux (acc ++ [c]) s

/-- The lines that the loop `for scanner.Scan()` sees. -/
def scanLines (s : Str) : List Str := scanLinesAux [] s

/-- The pattern `callouts`: `note|caution|warning`, as its three alternatives. -/
def callouts : List Regex :=
  [[plain (.lit "note".toList)], [plain (.lit "caution".toList)],
   [plain (.lit "warning".toList)]]

/-- The method `MatchString` for a pattern that is a choice of alternatives. -/
def matchStringAny (alts : List Regex) (s : Str) : Bool :=
  alts.any (fun re => matchString re s)

/-- The pattern `calloutRe`: `(\s*){:\s*\.(.*)}`. -/
def calloutRe : Regex :=
  [group (.star isPerlSpace), plain (.lit "\x7b:".toList), plain (.star isPerlSpace),
   plain (.lit ".".toList), group (.star dot), plain (.lit "\x7d".toList)]

/-- The test `strings.Contains(line, "{:") && callouts.MatchString(line)`: the
line carries a callout mark. -/
def isCallout (line : Str) : Bool :=
  contains line "\x7b:".toList && matchStringAny callouts line

/-- The opening shortcode line `%s{{< %s >}}\n`. -/
def openMarker (indent shortcode : Str) : Str :=
  indent ++ "\x7b\x7b< ".toList ++ shortcode ++ " >\x7d\x7d\n".toList

/-- The closing shortcode line `%s{{< /%s >}}\n`. -/
def closeMarker (indent shortcode : Str) : Str :=
  indent ++ "\x7b\x7b< /".toList ++ shortcode ++ " >\x7d\x7d\n".toList

/-- The variables of the loop of `calloutsToShortCodes`. -/
structure Scan where
  all : Str
  current : Str
  pcounter : Nat
  indent : Str
  shortcode : Str
  isOpen : Bool
deriving DecidableEq

/-- The variables before the first line. -/
def Scan.init : Scan := ⟨[], [], 0, [], [], false⟩

/-- The paragraph counter after a line: 0 on a blank line or a `---` line, one more
otherwise. -/
def nextCounter (pcounter : Nat) (line : Str) : Nat :=
  let l := trimSpace line
  if l = [] ∨ l = "---".toList then 0 else pcounter + 1

/-- One turn of the loop of `calloutsToShortCodes`; `none` is the panic of reading
`m[1]` when `calloutRe` does not match the line. -/
def scanStep (st : Scan) (line : Str) : Option Scan :=
  let pcounter := nextCounter st.pcounter line
  if isCallout line then
    let isStart := pcounter = 1
    match find calloutRe line with
    | none => none
    | some f =>
      let indent := f.m.sub 1
      let shortcode := f.m.sub 2
      let all := st.all ++ openMarker indent shortcode
      if ¬ isStart then
        some { all := all ++ st.current ++ closeMarker indent shortcode
               current := []
               pcounter := pcounter
               indent := indent
               shortcode := shortcode
               isOpen := st.isOpen }
      else
        some { all := all
               current := st.current
               pcounter := pcounter
               indent := indent
               shortcode := shortcode
               isOpen := true }
  else
    let current := st.current ++ line
    let current := if !st.isOpen || pcounter ≠ 0 then current ++ ['\n'] else current
    if pcounter = 0 then
      let current :=
        if st.isOpen then current ++ closeMarker st.indent st.shortcode else current
      some { all := st.all ++ current
             current := []
             pcounter := pcounter
             indent := st.indent
             shortcode := st.shortcode
             isOpen := false }
    else
      some { st with current := current, pcounter := pcounter }

/-- The loop of `calloutsToShortCodes` over the lines of the scanner. -/
def scanLoop : Scan → List Str → Option Scan
  | st, [] => some st
  | st, line :: ls =>
    match scanStep st line with
    | none => none
    | some st1 => scanLoop st1 ls

/-- The function `calloutsToShortCodes`. Its error result is always nil and is left
out; `none` is a panic. -/
def calloutsToShortCodes (path s : Str) : Option Str :=
  if contains path "style-guide".toList then some s
  else if !contains s "\x7b:".toList then some s
  else
    match scanLoop Scan.init (scanLines s) with
    | none => none
    | some st => some (st.all ++ st.current)


/-! ## Dates -/

/-- The pattern `dateRe`: `(date):\s*(.*)\s*\n`. -/
def dateRe : Regex :=
  [group (.lit "date".toList), plain (.lit ":".toList), plain (.star isPerlSpace),
   group (.star dot), plain (.star isPerlSpace), plain (.lit "\n".toList)]

/-- The function literal inside `fixDates`, on the text of one match. It assigns the
captured variable `err` on every call: the second component is the new value of
`err`. `parse` is `time.Parse` with the layout `Monday, January 2, 2006` and
`format` is `Format` with the layout `2006-01-02`. `none` is the panic of reading
`m[0]` when the pattern does not match. -/
def fixDatesRepl {T : Type} (parse : Str → Except Err T) (format : T → Str)
    (_err : Option Err) (s : Str) : Option (Str × Option Err) :=
  match find dateRe s with
  | none => none
  | some f =>
    let key := f.m.sub 1
    let val := f.m.sub 2
    match parse val with
    | .error e => some ([], some (key ++ ": ".toList ++ e))
    | .ok tt => some (key ++ ": ".toList ++ format tt ++ "\n".toList, none)

/-- The function `fixDates`, for the two functions of package `time` that it calls.
It returns the rewritten text and the last value of the variable `err`. -/
def fixDates {T : Type} (parse : Str → Except Err T) (format : T → Str)
    (_path s : Str) : Option (Str × Option Err) :=
  replaceAllStringFunc dateRe s (fixDatesRepl parse format) none

/-! ## Package `path/filepath` (Unix) -/

/-- The elements of a path: the texts between its slashes. -/
def splitSlashAux : Str → Str → List Str
  | acc, [] => [acc]
  | acc, c :: s => if c = '/' then acc :: splitSlashAux [] s else splitSlashAux (acc ++ [c]) s

/-- The elements of a path: the texts between its slashes. -/
def splitSlash (path : Str) : List Str := splitSlashAux [] path

/-- The loop of `filepath.Clean` on the elements of a path: empty elements and `.`
are dropped, `..` removes the element before it, or stays when the path is not
rooted and there is none to remove. The first list holds the elements kept so
far, the last one first. -/
def cleanElems (rooted : Bool) : List Str → List Str → List Str
  | st, [] => st.reverse
  | st, e :: es =>
    if e = [] ∨ e = ".".toList then cleanElems rooted st es
    else if e = "..".toList then
      match st with
      | [] => if rooted then cleanElems rooted [] es else cleanElems rooted [e] es
      | top :: st1 =>
        if top = "..".toList then cleanElems rooted (e :: st) es
        else cleanElems rooted st1 es
    else cleanElems rooted (e :: st) es

/-- The function `filepath.Clean`. -/
def clean (path : Str) : Str :=
  let rooted := path.head? = some '/'
  let elems := cleanElems rooted [] (splitSlash path)
  if rooted then '/' :: "/".toList.intercalate elems
  else if elems = [] then ".".toList
  else "/".toList.intercalate elems

/-- The function `filepath.Dir`: the path up to its last slash, cleaned. -/
def dir (path : Str) : Str :=
  clean (path.reverse.dropWhile (fun c => !(c = '/'))).reverse

/-- The function `filepath.Join` on two elements. -/
def join (a b : Str) : Str :=
  if a ≠ [] then clean (a ++ '/' :: b)
  else if b ≠ [] then clean b
  else []

/-! ## Renaming -/

/-- The pattern `index\.md$` of the first call of `renameContentFiles`. -/
def indexMdRe : Regex := [plain (.lit "index.md".toList), plain .eot]

/-- What the function of `renameContentFiles` does on one visited file: the two
entries it appends to the change log, and the call of `os.Rename` it makes. -/
structure Visit where
  logged : List Str
  renamed : Option (Str × Str)
deriving DecidableEq

/-- The method `mover.renameContentFiles` on one file of the walk: `re` is the compiled
`match`, `tryRun` is the field `try` of the mover, `isDir` is `info.IsDir()`. -/
def renameContentFiles (re : Regex) (renameTo : Str) (tryRun : Bool) (path : Str)
    (isDir : Bool) : Visit :=
  if !isDir && matchString re path then
    let targetFilename := join (dir path) renameTo
    { logged := [path, targetFilename]
      renamed := if !tryRun then some (path, targetFilename) else none }
  else { logged := [], renamed := none }

/-! ## Translation of the Liquid tags -/

/-- The first fixer of `mainContentFixSet`: one broken tooltip is repaired by a
literal replacement, at its first occurrence. -/
def fixTooltipTypo : contentFixer := fun _path s =>
  (replaceFirst
    "\x7b\x7b \"\x7b% glossary_tooltip text=\" \x7d\x7d\"cluster\" term_id=\"cluster\" %\x7d".toList
    "\x7b% glossary_tooltip text=\" term_id=\"cluster\" %\x7d".toList s, none)

/-- The pattern `{% glossary_tooltip(.*?)%}`. -/
def tooltipRe : Regex :=
  [plain (.lit "\x7b% glossary_tooltip".toList), group (.lazyStar dot),
   plain (.lit "%\x7d".toList)]

/-- The second fixer of `mainContentFixSet`. -/
def fixTooltip (uni : Char → Bool) : contentFixer := fun _path s =>
  (replaceAllString uni tooltipRe s "\x7b\x7b< glossary_tooltip$1>\x7d\x7d".toList, none)

/-- The pattern `{% glossary_definition(.*?)%}`. -/
def definitionRe : Regex :=
  [plain (.lit "\x7b% glossary_definition".toList), group (.lazyStar dot),
   plain (.lit "%\x7d".toList)]

/-- The third fixer of `mainContentFixSet`. -/
def fixDefinition (uni : Char → Bool) : contentFixer := fun _path s =>
  (replaceAllString uni definitionRe s "\x7b\x7b< glossary_definition$1>\x7d\x7d".toList, none)

/-- The pattern `{% include code.html(.*?)%}`; its dot is not escaped. -/
def codeIncludeRe : Regex :=
  [plain (.lit "\x7b% include code".toList), plain (.one dot), plain (.lit "html".toList),
   group (.lazyStar dot), plain (.lit "%\x7d".toList)]

/-- The fourth fixer of `mainContentFixSet`. -/
def fixCodeInclude (uni : Char → Bool) : contentFixer := fun _path s =>
  (replaceAllString uni codeIncludeRe s "\x7b\x7b< code$1>\x7d\x7d".toList, none)

/-- The pattern `(?s){% capture (.*?) %}(.*?){% endcapture %}`. -/
def captureRe : Regex :=
  [plain (.lit "\x7b% capture ".toList), group (.lazyStar dotAll),
   plain (.lit " %\x7d".toList), group (.lazyStar dotAll),
   plain (.lit "\x7b% endcapture %\x7d".toList)]

/-- The function `replaceCaptures`. -/
def replaceCaptures (uni : Char → Bool) : contentFixer := fun _path s =>
  (replaceAllString uni captureRe s
    "\x7b\x7b% capture $1 %\x7d\x7d$2\x7b\x7b% /capture %\x7d\x7d".toList, none)

/-- The fixers of `mainContentFixSet` that translate Liquid tags into shortcodes: the
rewrites of the tooltip, definition and code-include tags and `replaceCaptures`, in
the order of the set. In the set they stand between `fixTooltipTypo` and
`calloutsToShortCodes`. -/
def tagFixers (uni : Char → Bool) : contentFixers :=
  [fixTooltip uni, fixDefinition uni, fixCodeInclude uni, replaceCaptures uni]

/-- The text after the translation of the Liquid tags. -/
def translateTags (uni : Char → Bool) (path s : Str) : Str :=
  (contentFixers.fix (tagFixers uni) path s).1

/-! ## Values for the examples -/

/-- The number of places of a text where `sub` starts. -/
def occurrences (sub : Str) : Str → Nat
  | [] => if sub = [] then 1 else 0
  | c :: s => (if (cutPrefix sub (c :: s)).isSome then 1 else 0) + occurrences sub s

/-- A fixer that fails on every text, after it has produced an output. -/
def failingFixer : contentFixer := fun _path s => (s ++ "?".toList, some "boom".toList)

/-- A fixer that succeeds on every text and appends an exclamation mark. -/
def markingFixer : contentFixer := fun _path s => (s ++ "!".toList, none)

/-- A writer that accepts every text. -/
def goodWriter : Writer := fun t => (t, none)

/-- A stand-in for `time.Parse` that knows one date, for the examples: days are
counted from that date. -/
def parseOneDate (s : Str) : Except Err Nat :=
  if s = "Friday, July 02, 2015".toList then .ok 0
  else .error ("cannot parse ".toList ++ s)

/-- A stand-in for `Format` that goes with `parseOneDate`. -/
def formatOneDate (_ : Nat) : Str := "2015-07-02".toList

/-! ## Vocabulary of the statements -/

/-- A path element as a walk of the file tree yields it: not empty, without slash,
and neither `.` nor `..`. -/
def IsElem (e : Str) : Prop := e ≠ [] ∧ '/' ∉ e ∧ e ≠ ".".toList ∧ e ≠ "..".toList

/-- The absolute path with the given elements: each one after a slash. -/
def absPath (elems : List Str) : Str := (elems.map (fun e => '/' :: e)).flatten

instance (e : Str) : Decidable (IsElem e) := by unfold IsElem; exact inferInstance

/-- A part of the output of `calloutsToShortCodes`. -/
inductive Part where
  /-- an opening marker with its indent and shortcode -/
  | opening (indent shortcode : Str)
  /-- a closing marker with its indent and shortcode -/
  | closing (indent shortcode : Str)
  /-- an input line, followed by a line feed -/
  | line (content : Str)
  /-- an input line that ends an open span: no line feed follows it, the closing
  marker does -/
  | lastLine (content indent shortcode : Str)
deriving DecidableEq

/-- The text of a part. -/
def Part.render : Part → Str
  | .opening i k => openMarker i k
  | .closing i k => closeMarker i k
  | .line c => c ++ ['\n']
  | .lastLine c i k => c ++ closeMarker i k

/-- The text of a sequence of parts. -/
def render (ps : List Part) : Str := (ps.map Part.render).flatten

/-- The input line that a part carries, if it carries one. -/
def Part.content? : Part → Option Str
  | .opening _ _ => none
  | .closing _ _ => none
  | .line c => some c
  | .lastLine c _ _ => some c

/-- The input lines that a sequence of parts carries. -/
def contents (ps : List Part) : List Str := ps.filterMap Part.content?

/-- The lines that end a paragraph: blank lines and `---` lines. -/
def isBoundary (line : Str) : Bool :=
  trimSpace line = [] || trimSpace line = "---".toList

/-- The test that a part, when it is a line that ends an open span, holds a paragraph
boundary. -/
def Part.bounded : Part → Bool
  | .lastLine c _ _ => isBoundary c
  | _ => true

/-- The test that every line that ends an open span is a paragraph boundary. -/
def bounded (ps : List Part) : Bool := ps.all Part.bounded

/-- A line of the output that is a shortcode marker, as the sentence "once the
emitted markers are removed" reads the output: after its indent the line starts
with `{{< ` and it ends with ` >}}`. -/
def isMarkerLine (l : Str) : Bool :=
  (cutPrefix "\x7b\x7b< ".toList (l.dropWhile isUnicodeSpace)).isSome &&
    hasSuffix l " >\x7d\x7d".toList

/-- The annotation line `{: .K}` of a callout kind `K`. -/
def annotationLine (kind : Str) : Str := "\x7b: .".toList ++ kind ++ "\x7d".toList

/-- The text of a list of lines, each followed by a line feed. -/
def unlines (ls : List Str) : Str := (ls.map (fun l => l ++ ['\n'])).flatten

/-- The three callout kinds. -/
def IsKind (kind : Str) : Prop :=
  kind = "note".toList ∨ kind = "caution".toList ∨ kind = "warning".toList

instance (kind : Str) : Decidable (IsKind kind) := by unfold IsKind; exact inferInstance

/-- The output of the loop of `calloutsToShortCodes` on a list of lines: the buffer
`all` followed by the buffer `current`; `none` is a panic. -/
def linesOutput (ls : List Str) : Option Str :=
  (scanLoop Scan.init ls).map (fun st => st.all ++ st.current)

/-- The lines of a text with their carriage returns: the text is cut at every line
feed, and a final text without line feed is a line too. `acc` is the line read so
far. -/
def rawLinesAux : Str → Str → List Str
  | acc, [] => if acc = [] then [] else [acc]
  | acc, c :: s => if c = '\n' then acc :: rawLinesAux [] s else rawLinesAux (acc ++ [c]) s

/-- The lines of a text with their carriage returns. -/
def rawLines (s : Str) : List Str := rawLinesAux [] s

/-- The lines of a text, each without its end of line, a line feed or a carriage
return and a line feed. -/
def textLines (s : Str) : List Str := (rawLines s).map dropCR

/-- The variables of the loop of `calloutsToShortCodes`, with the content of the two
buffers `all` and `current` kept as the sequence of the parts written to them. -/
structure PartScan where
  all : List Part
  current : List Part
  pcounter : Nat
  indent : Str
  shortcode : Str
  isOpen : Bool
deriving DecidableEq

/-- The variables before the first line. -/
def PartScan.init : PartScan := ⟨[], [], 0, [], [], false⟩

/-- The variables of the loop, with the text of each buffer. -/
def PartScan.toScan (st : PartScan) : Scan :=
  { all := render st.all
    current := render st.current
    pcounter := st.pcounter
    indent := st.indent
    shortcode := st.shortcode
    isOpen := st.isOpen }

/-- One turn of the loop of `calloutsToShortCodes`, on the buffers kept as parts: each
write to a buffer of `scanStep` is the part written. A line with a callout mark
writes the opening marker of its indent and shortcode, submatches 1 and 2 of
`calloutRe`, and, when it does not start a paragraph, the closing marker after the
buffer `current`. Another line is written with its line feed, or, when it ends an
open span, with the closing marker of the span in place of the line feed. -/
def partStep (st : PartScan) (line : Str) : Option PartScan :=
  let pcounter := nextCounter st.pcounter line
  if isCallout line then
    let isStart := pcounter = 1
    match find calloutRe line with
    | none => none
    | some f =>
      let indent := f.m.sub 1
      let shortcode := f.m.sub 2
      let all := st.all ++ [.opening indent shortcode]
      if ¬ isStart then
        some { all := all ++ st.current ++ [.closing indent shortcode]
               current := []
               pcounter := pcounter
               indent := indent
               shortcode := shortcode
               isOpen := st.isOpen }
      else
        some { all := all
               current := st.current
               pcounter := pcounter
               indent := indent
               shortcode := shortcode
               isOpen := true }
  else if pcounter = 0 then
    let last := if st.isOpen then Part.lastLine line st.indent st.shortcode else Part.line line
    some { all := st.all ++ (st.current ++ [last])
           current := []
           pcounter := pcounter
           indent := st.indent
           shortcode := st.shortcode
           isOpen := false }
  else
    some { st with current := st.current ++ [.line line], pcounter := pcounter }

/-- The loop of `calloutsToShortCodes` on the buffers kept as parts. -/
def partLoop : PartScan → List Str → Option PartScan
  | st, [] => some st
  | st, line :: ls =>
    match partStep st line with
    | none => none
    | some st1 => partLoop st1 ls

/-- The parts that the loop of `calloutsToShortCodes` writes for a list of lines: the
buffer `all` followed by the buffer `current`; `none` is a panic. -/
def lineParts (ls : List Str) : Option (List Part) :=
  (partLoop PartScan.init ls).map (fun st => st.all ++ st.current)

/-! ## Vocabulary of the translation of the Liquid tags -/

/-- No occurrence of `w` in the text `x ++ u` starts in the part `x`. -/
def NoStart (w x u : Str) : Prop := ∀ x1 x2, x = x1 ++ x2 → x2 ≠ [] → ¬ w <+: x2 ++ u

instance (w x u : Str) : Decidable (NoStart w x u) :=
  decidable_of_iff (∀ x2 ∈ x.tails, x2 ≠ [] → ¬ w <+: x2 ++ u)
    ⟨fun h x1 x2 hx hx2 => h x2 ((List.mem_tails x2 x).2 ⟨x1, hx.symm⟩) hx2,
      fun h x2 hm hx2 => by
        obtain ⟨x1, hx⟩ := (List.mem_tails x2 x).1 hm
        exact h x1 x2 hx.symm hx2⟩

/-- The test that neither of two texts starts with the other. -/
def clash (a b : Str) : Bool := (cutPrefix a b).isNone && (cutPrefix b a).isNone

/-- The test that no occurrence of `w` can start in the text `x`, whatever follows
`x`: no non-empty final part of `x` starts with `w` or is a leading part of `w`. -/
def apart (w x : Str) : Bool := x.tails.all (fun x2 => x2.isEmpty || clash w x2)

/-- A Liquid tag that one fixer rewrites by itself, with its argument: the text
between the opener of the tag and its `%}`. -/
inductive Tag where
  /-- the tag `{% glossary_tooltip ARG%}` -/
  | tooltip (arg : Str)
  /-- the tag `{% glossary_definition ARG%}` -/
  | definition (arg : Str)
  /-- the tag `{% include code.html ARG%}` -/
  | codeInclude (arg : Str)
deriving DecidableEq

/-- The argument of a tag. -/
def Tag.arg : Tag → Str
  | .tooltip a => a
  | .definition a => a
  | .codeInclude a => a

/-- The Liquid form of a tag, as the source text has it. -/
def Tag.liquid : Tag → Str
  | .tooltip a => "\x7b% glossary_tooltip".toList ++ (a ++ "%\x7d".toList)
  | .definition a => "\x7b% glossary_definition".toList ++ (a ++ "%\x7d".toList)
  | .codeInclude a => "\x7b% include code.html".toList ++ (a ++ "%\x7d".toList)

/-- The shortcode form of a tag. -/
def Tag.shortcode : Tag → Str
  | .tooltip a => "\x7b\x7b< glossary_tooltip".toList ++ (a ++ ">\x7d\x7d".toList)
  | .definition a => "\x7b\x7b< glossary_definition".toList ++ (a ++ ">\x7d\x7d".toList)
  | .codeInclude a => "\x7b\x7b< code".toList ++ (a ++ ">\x7d\x7d".toList)

/-- The place in `tagFixers` of the fixer that rewrites a tag. -/
def Tag.fixer : Tag → Nat
  | .tooltip _ => 1
  | .definition _ => 2
  | .codeInclude _ => 3

/-- The form of a tag after the first `k` fixers of `tagFixers`. -/
def Tag.text (k : Nat) (t : Tag) : Str := if t.fixer ≤ k then t.shortcode else t.liquid

/-- The text of a sequence of pairs, a plain text and the item that follows it. -/
def segsText {α : Type} (f : α → Str) (segs : List (Str × α)) : Str :=
  (segs.map (fun p => p.1 ++ f p.2)).flatten

/-- A block of a document: a tag, or a capture with its name and its body. The body
is plain text and tags: pairs of a plain text and the tag after it, and a last
plain text. -/
inductive Block where
  | tag (t : Tag)
  | capture (name : Str) (body : List (Str × Tag)) (last : Str)

/-- The form of a block after the first `k` fixers of `tagFixers`: the fourth fixer,
`replaceCaptures`, rewrites the two ends of a capture. -/
def Block.text (k : Nat) : Block → Str
  | .tag t => t.text k
  | .capture n body last =>
    if 4 ≤ k then
      ("\x7b\x7b% capture ".toList ++ (n ++ " %\x7d\x7d".toList)) ++
        ((segsText (Tag.text k) body ++ last) ++ "\x7b\x7b% /capture %\x7d\x7d".toList)
    else
      ("\x7b% capture ".toList ++ (n ++ " %\x7d".toList)) ++
        ((segsText (Tag.text k) body ++ last) ++ "\x7b% endcapture %\x7d".toList)

/-- A document: plain text and blocks, as pairs of a plain text and the block after
it, and a last plain text. -/
structure Doc where
  blocks : List (Str × Block)
  last : Str

/-- The text of a document after the first `k` fixers of `tagFixers`. -/
def Doc.text (k : Nat) (d : Doc) : Str := segsText (Block.text k) d.blocks ++ d.last

/-- The source text of a document: every tag and capture in its Liquid form. -/
def Doc.liquid (d : Doc) : Str := d.text 0

/-- The translated text of a document: every tag and capture in its shortcode form. -/
def Doc.shortcodes (d : Doc) : Str := d.text 4

/-- The texts that make a Liquid tag of the translation: the openers of the four
patterns and the end of a capture. -/
def tagWords : List Str :=
  ["\x7b% glossary_tooltip".toList, "\x7b% glossary_definition".toList,
   "\x7b% include code".toList, "\x7b% capture ".toList, "\x7b% endcapture %\x7d".toList]

/-- A plain text: none of the texts of `tagWords` occurs in it. -/
def isPlain (t : Str) : Bool := tagWords.all (fun w => !contains t w)

/-- A well-formed tag: its argument is on one line and has neither `{%` nor `%}`. -/
def Tag.wf (t : Tag) : Bool :=
  t.arg.all dot && !contains t.arg "\x7b%".toList && !contains t.arg "%\x7d".toList

/-- A well-formed block: a well-formed tag, or a capture whose name has neither `{%`
nor ` %}`, and whose body is plain text and well-formed tags. -/
def Block.wf : Block → Bool
  | .tag t => t.wf
  | .capture n body last =>
    !contains n "\x7b%".toList && !contains n " %\x7d".toList &&
      body.all (fun p => isPlain p.1 && p.2.wf) && isPlain last

/-- A well-formed document: plain text and well-formed blocks. -/
def Doc.wf (d : Doc) : Bool := d.blocks.all (fun p => isPlain p.1 && p.2.wf) && isPlain d.last

/-- A well-formed document, for the examples: a tooltip, a code include, a Liquid tag
that the translation does not rewrite, and a capture that holds a definition. -/
def sampleDoc : Doc :=
  { blocks :=
      [("See ".toList, .tag (.tooltip " term_id=\"pod\" ".toList)),
       (" and ".toList, .tag (.codeInclude " file=\"a.yaml\" ".toList)),
       ("\n\x7b% assign x = 1 %\x7d\n".toList,
        .capture "overview".toList
          [("A ".toList, .definition " term_id=\"node\" ".toList)] " here.\n".toList)]
    last := "\nend\n".toList }

/-! # Theorems -/

/-! ## Front matter -/

/-- C1: on a document that starts with a front-matter block and has a later line
starting with `---`, `appendToFrontMatter` puts the addition before the last such
line of the document, not before the line that closes the block: the content after
the block is changed and the block is not. And an addition with a dollar sign is
not inserted as it is: `$5` is read as a reference of the replacement template. -/
theorem appendToFrontMatter_targets_last_delimiter (uni : Char → Bool) :
    appendToFrontMatter uni "---\ntitle: T\n---\nbody\n---\nend\n".toList "weight: 10".toList
        = "---\ntitle: T\n---\nbody\nweight: 10\n---\nend\n".toList ∧
      appendToFrontMatter uni "---\ntitle: T\n---\nbody\n---\nend\n".toList
          "weight: 10".toList
        ≠ "---\ntitle: T\nweight: 10\n---\nbody\n---\nend\n".toList ∧
      appendToFrontMatter uni "---\ntitle: T\n---\n".toList "price: $5".toList
        = "---\ntitle: T\nprice: \n---\n".toList := by
  have h : appendToFrontMatter uni "---\ntitle: T\n---\nbody\n---\nend\n".toList
      "weight: 10".toList = "---\ntitle: T\n---\nbody\nweight: 10\n---\nend\n".toList := rfl
  refine ⟨h, ?_, rfl⟩
  rw [h]
  decide

/-- C2: on a document that does not start with a `---` line but has two later lines
starting with `---`, `appendToFrontMatter` does not return the document: it inserts
the addition before the last of them. -/
theorem appendToFrontMatter_changes_document_without_front_matter (uni : Char → Bool) :
    appendToFrontMatter uni "Title\n---\nfoo\n---\nbar".toList "weight: 10".toList
        = "Title\n---\nfoo\nweight: 10\n---\nbar".toList ∧
      appendToFrontMatter uni "Title\n---\nfoo\n---\nbar".toList "weight: 10".toList
        ≠ "Title\n---\nfoo\n---\nbar".toList := by
  have h : appendToFrontMatter uni "Title\n---\nfoo\n---\nbar".toList "weight: 10".toList
      = "Title\n---\nfoo\nweight: 10\n---\nbar".toList := rfl
  refine ⟨h, ?_⟩
  rw [h]
  decide

/-! ## Callouts: the end of the input -/

/-- C3: when the input ends while a span is open, `calloutsToShortCodes` emits the
opening marker and no closing marker: the output of a text without `{{<` has
one opening marker and no closing one. -/
theorem calloutsToShortCodes_unclosed_at_end_of_input :
    contains "\x7b: .note\x7d\nfoo\n".toList "\x7b\x7b<".toList = false ∧
      calloutsToShortCodes "a.md".toList "\x7b: .note\x7d\nfoo\n".toList
        = some "\x7b\x7b< note >\x7d\x7d\nfoo\n".toList ∧
      occurrences "\x7b\x7b< note >\x7d\x7d".toList "\x7b\x7b< note >\x7d\x7d\nfoo\n".toList = 1 ∧
      occurrences "\x7b\x7b< /note >\x7d\x7d".toList "\x7b\x7b< note >\x7d\x7d\nfoo\n".toList = 0 := by
  decide

/-! ## The fixer chain -/

/-- C4, the claim refuted: after a failing fixer the next fixer of the chain does not
run. The chain of a failing fixer and a marking fixer returns the empty text and the
error, not the text that the marking fixer gives on the text before the failure. -/
theorem fix_does_not_run_later_fixers :
    contentFixers.fix [failingFixer, markingFixer] "a.md".toList "text".toList
        = ([], some "boom".toList) ∧
      contentFixers.fix [markingFixer] "a.md".toList "text".toList
        = ("text!".toList, none) ∧
      contentFixers.fix [failingFixer, markingFixer] "a.md".toList "text".toList
        ≠ contentFixers.fix [markingFixer] "a.md".toList "text".toList := by
  decide

/-- C4, amended: when the fixers before `f` succeed and `f` fails with the error `e`,
`contentFixers.fix` returns the empty text and `e`, whatever fixers come after `f`:
the output of `f` is discarded and no later fixer runs. -/
theorem fix_stops_at_first_error (pre post : contentFixers) (f : contentFixer)
    (path s s1 t : Str) (e : Err)
    (hpre : contentFixers.fix pre path s = (s1, none))
    (hf : f path s1 = (t, some e)) :
    contentFixers.fix (pre ++ f :: post) path s = ([], some e) := by
  induction pre generalizing s with
  | nil =>
    simp only [contentFixers.fix, Prod.mk.injEq, and_true] at hpre
    subst hpre
    simp [contentFixers.fix, hf]
  | cons g pre ih =>
    simp only [List.cons_append, contentFixers.fix] at hpre ⊢
    rcases hg : g path s with ⟨s2, _ | err⟩
    · rw [hg] at hpre
      simpa [hg] using ih s2 hpre
    · rw [hg] at hpre
      simp at hpre

/-- C4, amended, at a chain of a marking fixer, a failing fixer and a marking fixer. -/
theorem fix_stops_at_first_error_witness :
    contentFixers.fix ([markingFixer] ++ failingFixer :: [markingFixer])
        "a.md".toList "text".toList = ([], some "boom".toList) :=
  fix_stops_at_first_error [markingFixer] [markingFixer] failingFixer
    "a.md".toList "text".toList "text!".toList "text!?".toList "boom".toList
    (by decide) (by decide)

/-! ## The file rewriter -/

/-- C5: when reading succeeds and the writer accepts what it is given,
`mover.replace` returns no error; it writes the input content itself when the
replacer fails on it, and the replacer's text when the replacer succeeds. -/
theorem replace_keeps_content_on_fixer_error (path : Str) (inp : Reader) (out : Writer)
    (r : contentFixer) (hread : inp.err = none) (hwrite : ∀ t, out t = (t, none)) :
    (replace path inp out r).err = none ∧
      (∀ t e, r path inp.data = (t, some e) → (replace path inp out r).written = inp.data) ∧
      (∀ t, r path inp.data = (t, none) → (replace path inp out r).written = t) := by
  unfold replace
  rw [hread]
  rcases hr : r path inp.data with ⟨t, _ | e⟩
  · simp [hwrite, hr]
  · simp [hwrite, hr]

/-- C5 at a failing and at a succeeding replacer: the failing one leaves the content
`text` in the output, the succeeding one puts its own text there, and no error is
returned. -/
theorem replace_keeps_content_on_fixer_error_witness :
    (replace "a.md".toList ⟨"text".toList, none⟩ goodWriter failingFixer).written
        = "text".toList ∧
      (replace "a.md".toList ⟨"text".toList, none⟩ goodWriter failingFixer).err = none ∧
      (replace "a.md".toList ⟨"text".toList, none⟩ goodWriter markingFixer).written
        = "text!".toList :=
  ⟨(replace_keeps_content_on_fixer_error "a.md".toList ⟨"text".toList, none⟩ goodWriter
      failingFixer rfl (fun _ => rfl)).2.1 _ _ rfl,
   (replace_keeps_content_on_fixer_error "a.md".toList ⟨"text".toList, none⟩ goodWriter
      failingFixer rfl (fun _ => rfl)).1,
   (replace_keeps_content_on_fixer_error "a.md".toList ⟨"text".toList, none⟩ goodWriter
      markingFixer rfl (fun _ => rfl)).2.2 _ rfl⟩

/-! ## Dates -/

/-- C6: a text whose first `date:` field does not parse and whose second one does.
`fixDates` returns no error, although one date field failed: the variable `err` is
assigned again by the call for the second field, and the line of the failing field
is removed from the text. -/
theorem fixDates_later_date_hides_failure {T : Type} (parse : Str → Except Err T)
    (format : T → Str) (path : Str) (e : Err) (t : T)
    (hbad : parse "bad".toList = .error e)
    (hgood : parse "Friday, July 02, 2015".toList = .ok t) :
    fixDates parse format path "date: bad\ndate: Friday, July 02, 2015\n".toList
      = some ("date: ".toList ++ format t ++ "\n".toList, none) := by
  have hp : pieces dateRe "date: bad\ndate: Friday, July 02, 2015\n".toList
      = [.text [], .hit ⟨"date: bad\n".toList, ["date".toList, "bad".toList],
            "date: Friday, July 02, 2015\n".toList⟩,
         .text [], .hit ⟨"date: Friday, July 02, 2015\n".toList,
            ["date".toList, "Friday, July 02, 2015".toList], []⟩, .text []] := by
    decide
  have h1 : find dateRe "date: bad\n".toList
      = some ⟨[], ⟨"date: bad\n".toList, ["date".toList, "bad".toList], []⟩⟩ := by
    decide
  have h2 : find dateRe "date: Friday, July 02, 2015\n".toList
      = some ⟨[], ⟨"date: Friday, July 02, 2015\n".toList,
          ["date".toList, "Friday, July 02, 2015".toList], []⟩⟩ := by
    decide
  unfold fixDates replaceAllStringFunc
  rw [hp]
  simp only [List.foldl, fixDatesRepl, h1, h2, Match.sub, List.getD, List.get?, Option.getD,
    hbad, hgood, List.append_nil, List.nil_append]
  rfl

/-- C6 at the stand-ins `parseOneDate` and `formatOneDate` for package `time`. -/
theorem fixDates_later_date_hides_failure_witness :
    fixDates parseOneDate formatOneDate "a.md".toList
        "date: bad\ndate: Friday, July 02, 2015\n".toList
      = some ("date: ".toList ++ formatOneDate 0 ++ "\n".toList, none) :=
  fixDates_later_date_hides_failure parseOneDate formatOneDate "a.md".toList
    ("cannot parse ".toList ++ "bad".toList) 0 rfl rfl

/-! ## Renaming: the rule `index\.md$` -/

/-- The cut succeeds exactly on the texts that start with `l`. -/
theorem cutPrefix_eq_some_iff (l s r : Str) : cutPrefix l s = some r ↔ s = l ++ r := by
  induction l generalizing s with
  | nil => simp [cutPrefix, eq_comm]
  | cons a l ih =>
    cases s with
    | nil => simp [cutPrefix]
    | cons b s =>
      by_cases h : a = b
      · subst h; simp [cutPrefix, ih]
      · simp [cutPrefix, h]; intro h'; exact absurd h'.symm h

/-- The cut succeeds exactly when `l` is a leading part of the text. -/
theorem cutPrefix_isSome_iff (l s : Str) : (cutPrefix l s).isSome ↔ l <+: s := by
  rw [Option.isSome_iff_exists]
  constructor
  · rintro ⟨r, hr⟩; exact ⟨r, ((cutPrefix_eq_some_iff l s r).1 hr).symm⟩
  · rintro ⟨r, hr⟩; exact ⟨r, (cutPrefix_eq_some_iff l s r).2 hr.symm⟩

/-- The test `hasSuffix` decides whether `suf` is a final part of the text. -/
theorem hasSuffix_iff (s suf : Str) : hasSuffix s suf = true ↔ suf <:+ s := by
  unfold hasSuffix
  rw [cutPrefix_isSome_iff, List.reverse_prefix]

/-- A literal followed by the end anchor matches at the start of exactly one text: the literal. -/
theorem matchHere_lit_eot (l s : Str) :
    (matchHere [plain (.lit l), plain .eot] s).isSome ↔ s = l := by
  simp only [matchHere, plain]
  cases h : cutPrefix l s with
  | none =>
    simp
    intro hs
    rw [hs] at h
    have := (cutPrefix_eq_some_iff l l []).2 (by simp)
    simp [this] at h
  | some r =>
    have hs := (cutPrefix_eq_some_iff l s r).1 h
    cases r with
    | nil => simp [hs]
    | cons c r => simp [hs]

/-- The search finds a match exactly when the pattern matches at the start of some final part of the text. -/
theorem findFrom_isSome_iff (re : Regex) (pre s : Str) :
    (findFrom re pre s).isSome ↔ ∃ t, t <:+ s ∧ (matchHere re t).isSome := by
  induction s generalizing pre with
  | nil => simp [findFrom]
  | cons c s ih =>
    simp only [findFrom]
    cases h : matchHere re (c :: s) with
    | some m =>
      simp
      exact ⟨c :: s, List.suffix_refl _, by simp [h]⟩
    | none =>
      simp only [ih, List.suffix_cons_iff]
      constructor
      · rintro ⟨t, ht, hm⟩; exact ⟨t, Or.inr ht, hm⟩
      · rintro ⟨t, ht | ht, hm⟩
        · subst ht; simp [h] at hm
        · exact ⟨t, ht, hm⟩

/-- The pattern `index\.md$` matches a path exactly when the path ends with `index.md`. -/
theorem matchString_indexMdRe (p : Str) :
    matchString indexMdRe p = hasSuffix p "index.md".toList := by
  rw [Bool.eq_iff_iff, hasSuffix_iff]
  unfold matchString find indexMdRe
  rw [findFrom_isSome_iff]
  constructor
  · rintro ⟨t, ht, hm⟩
    rw [matchHere_lit_eot] at hm
    exact hm ▸ ht
  · intro h
    exact ⟨_, h, (matchHere_lit_eot _ _).2 rfl⟩

/-- The elements of a path with a slash in the middle: those before the slash, then those after it. -/
theorem splitSlashAux_append_slash (acc s t : Str) :
    splitSlashAux acc (s ++ '/' :: t) = splitSlashAux acc s ++ splitSlashAux [] t := by
  induction s generalizing acc with
  | nil => simp [splitSlashAux]
  | cons c s ih =>
    by_cases h : c = '/'
    · simp [splitSlashAux, h, ih]
    · simp [splitSlashAux, h, ih]

/-- A text without slash is one element. -/
theorem splitSlashAux_of_no_slash (acc s : Str) (h : '/' ∉ s) :
    splitSlashAux acc s = [acc ++ s] := by
  induction s generalizing acc with
  | nil => simp [splitSlashAux]
  | cons c s ih =>
    have hc : ¬ c = '/' := fun hc => h (by simp [hc])
    have hs : '/' ∉ s := fun hs => h (by simp [hs])
    simp [splitSlashAux, hc, ih _ hs]

/-- An absolute path with one more element. -/
theorem absPath_append (es : List Str) (e : Str) :
    absPath (es ++ [e]) = absPath es ++ '/' :: e := by
  simp [absPath]

/-- The elements of an absolute path: the empty text before the first slash, then its elements. -/
theorem splitSlashAux_absPath (acc : Str) (es : List Str) (h : ∀ e ∈ es, IsElem e) :
    splitSlashAux acc (absPath es) = acc :: es := by
  induction es using List.reverseRecOn generalizing acc with
  | nil => simp [absPath, splitSlashAux]
  | append_singleton es e ih =>
    rw [absPath_append, splitSlashAux_append_slash, ih]
    · rw [splitSlashAux_of_no_slash _ _ (h e (by simp)).2.1]; simp
    · intro x hx; exact h x (by simp [hx])

/-- The loop of `Clean` keeps the elements of a walk. -/
theorem cleanElems_elems (rooted : Bool) (st es rest : List Str) (h : ∀ e ∈ es, IsElem e) :
    cleanElems rooted st (es ++ rest) = cleanElems rooted (es.reverse ++ st) rest := by
  induction es generalizing st with
  | nil => simp
  | cons e es ih =>
    obtain ⟨h1, _, h3, h4⟩ := h e (by simp)
    have ih2 := ih (e :: st) (fun x hx => h x (by simp [hx]))
    simp only [List.cons_append, cleanElems, h1, h3, h4, false_or, if_false]
    simpa using ih2

/-- An absolute path followed by a slash starts with a slash. -/
theorem absPath_head (es : List Str) (t : Str) : (absPath es ++ '/' :: t).head? = some '/' := by
  cases es with
  | nil => simp [absPath]
  | cons e es => simp [absPath]

/-- `Clean` of a directory path with a final slash. -/
theorem clean_absPath_slash (es : List Str) (h : ∀ e ∈ es, IsElem e) :
    clean (absPath es ++ "/".toList) = '/' :: "/".toList.intercalate es := by
  have hsplit : splitSlash (absPath es ++ "/".toList) = [] :: es ++ [[]] := by
    show splitSlashAux [] (absPath es ++ '/' :: []) = _
    rw [splitSlashAux_append_slash, splitSlashAux_absPath _ _ h]
    simp [splitSlashAux]
  have hhead : (absPath es ++ "/".toList).head? = some '/' := absPath_head es []
  unfold clean
  have hclean : cleanElems true [] ([] :: (es ++ [[]])) = es := by
    simp only [cleanElems, true_or, if_true]
    rw [cleanElems_elems _ _ _ _ h]
    simp [cleanElems]
  simp only [hhead, hsplit, if_true, List.cons_append, decide_True, hclean]

/-- Reading a path from its end, up to the last slash. -/
theorem dropWhile_reverse_no_slash (name rest : Str) (h : '/' ∉ name) :
    (name.reverse ++ '/' :: rest).dropWhile (fun c => !(c = '/')) = '/' :: rest := by
  have : ∀ l : Str, '/' ∉ l → (l ++ '/' :: rest).dropWhile (fun c => !(c = '/')) = '/' :: rest := by
    intro l hl
    induction l with
    | nil => simp [List.dropWhile]
    | cons c l ih =>
      have hc : ¬ c = '/' := fun hc => hl (by simp [hc])
      have hl2 : '/' ∉ l := fun hs => hl (by simp [hs])
      simp [List.dropWhile, hc, ih hl2]
  exact this _ (by simpa using h)

/-- `Dir` of the path of a file is the path of its directory. -/
theorem dir_absPath (es : List Str) (name : Str) (h : ∀ e ∈ es, IsElem e) (hn : IsElem name) :
    dir (absPath (es ++ [name])) = '/' :: "/".toList.intercalate es := by
  unfold dir
  rw [absPath_append]
  have : ((absPath es ++ '/' :: name).reverse.dropWhile (fun c => !(c = '/'))).reverse
      = absPath es ++ "/".toList := by
    rw [List.reverse_append, List.reverse_cons, List.append_assoc]
    simp only [List.singleton_append]
    rw [dropWhile_reverse_no_slash _ _ hn.2.1]
    simp
  rw [this, clean_absPath_slash es h]

/-- The elements joined by slashes after a leading slash are the absolute path. -/
theorem cons_intercalate_eq_absPath (es : List Str) (e : Str) :
    '/' :: "/".toList.intercalate (es ++ [e]) = absPath (es ++ [e]) := by
  induction es with
  | nil => simp [absPath, List.intercalate]
  | cons a es ih =>
    cases es with
    | nil => simp [absPath, List.intercalate]
    | cons b es =>
      simp only [absPath, List.intercalate, List.cons_append, List.intersperse, List.map_cons,
        List.flatten_cons, List.cons.injEq, true_and] at ih ⊢
      simpa using ih

/-- `Clean` leaves an absolute path of elements of a walk as it is. -/
theorem clean_absPath (es : List Str) (e : Str) (h : ∀ x ∈ es ++ [e], IsElem x) :
    clean (absPath (es ++ [e])) = absPath (es ++ [e]) := by
  have hsplit : splitSlash (absPath (es ++ [e])) = [] :: (es ++ [e]) :=
    splitSlashAux_absPath [] _ h
  have hhead : (absPath (es ++ [e])).head? = some '/' := by
    rw [absPath_append]; exact absPath_head es e
  have hclean : cleanElems true [] ([] :: (es ++ [e])) = es ++ [e] := by
    simp only [cleanElems, true_or, if_true]
    have := cleanElems_elems true [] (es ++ [e]) [] h
    rw [List.append_nil] at this
    rw [this]
    simp [cleanElems]
  unfold clean
  simp only [hhead, hsplit, if_true, decide_True, hclean]
  exact cons_intercalate_eq_absPath es e

/-- `Join` of a directory path and a file name is the path of that file in the directory. -/
theorem join_dir_absPath (es : List Str) (r : Str) (h : ∀ e ∈ es, IsElem e) (hr : IsElem r) :
    join ('/' :: "/".toList.intercalate es) r = absPath (es ++ [r]) := by
  have hall : ∀ x ∈ es ++ [r], IsElem x := by
    intro x hx
    rcases List.mem_append.1 hx with hx | hx
    · exact h x hx
    · simp at hx; exact hx ▸ hr
  unfold join
  simp only [ne_eq, reduceCtorEq, not_false_eq_true, if_true]
  rcases List.eq_nil_or_concat es with hnil | ⟨es1, e1, rfl⟩
  · subst hnil
    have hd1 : ¬ r = ['.'] := hr.2.2.1
    have hd2 : ¬ r = ['.', '.'] := hr.2.2.2
    have hsplit : splitSlash ('/' :: '/' :: r) = [[], [], r] := by
      simp [splitSlash, splitSlashAux, splitSlashAux_of_no_slash _ _ hr.2.1]
    simp only [List.intercalate, List.intersperse, List.flatten_nil, List.nil_append,
      List.singleton_append]
    unfold clean
    simp only [hsplit, List.head?_cons, if_true, decide_True]
    simp [cleanElems, hr.1, hd1, hd2, absPath, List.intercalate]
  · rw [List.concat_eq_append] at hall ⊢
    rw [cons_intercalate_eq_absPath, ← absPath_append]
    exact clean_absPath _ _ hall

/-- A text without slash is a final part of a path exactly when it is a final part of the file name. -/
theorem suffix_after_slash (l pre name : Str) (hl : '/' ∉ l) :
    l <:+ pre ++ '/' :: name ↔ l <:+ name := by
  constructor
  · intro h
    have hname : name <:+ pre ++ '/' :: name := ⟨pre ++ ['/'], by simp⟩
    by_cases hlen : l.length ≤ name.length
    · exact List.suffix_of_suffix_length_le h hname hlen
    · have hs : '/' :: name <:+ pre ++ '/' :: name := List.suffix_append _ _
      have : '/' :: name <:+ l :=
        List.suffix_of_suffix_length_le hs h (by simp; omega)
      exact absurd (this.subset (List.mem_cons_self _ _)) hl
  · intro h
    exact h.trans ⟨pre ++ ['/'], by simp⟩

/-- C7, amended: for a regular file at the absolute path `/e1/.../en/name`, the rule
`renameContentFiles("index\.md$", "_index.md")` of a live run renames the file exactly
when `name` ends with `index.md`, and then to `/e1/.../en/_index.md`, the file
`_index.md` of the same directory; a file whose name does not end with `index.md`
is neither logged nor renamed. -/
theorem renameContentFiles_index_md (es : List Str) (name : Str)
    (hes : ∀ e ∈ es, IsElem e) (hn : IsElem name) :
    renameContentFiles indexMdRe "_index.md".toList false (absPath (es ++ [name])) false =
      if hasSuffix name "index.md".toList then
        { logged := [absPath (es ++ [name]), absPath (es ++ ["_index.md".toList])]
          renamed := some (absPath (es ++ [name]), absPath (es ++ ["_index.md".toList])) }
      else { logged := [], renamed := none } := by
  have hsuf : hasSuffix (absPath (es ++ [name])) "index.md".toList
      = hasSuffix name "index.md".toList := by
    rw [Bool.eq_iff_iff, hasSuffix_iff, hasSuffix_iff, absPath_append]
    exact suffix_after_slash _ _ _ (by decide)
  unfold renameContentFiles
  rw [matchString_indexMdRe, hsuf, dir_absPath es name hes hn,
    join_dir_absPath es _ hes (by decide)]
  simp

/-- C7, amended, at the file `/site/content/foo/notindex.md`. -/
theorem renameContentFiles_index_md_witness :
    renameContentFiles indexMdRe "_index.md".toList false
        (absPath (["site".toList, "content".toList, "foo".toList] ++ ["notindex.md".toList]))
        false =
      if hasSuffix "notindex.md".toList "index.md".toList then
        { logged := [absPath (["site".toList, "content".toList, "foo".toList] ++
                      ["notindex.md".toList]),
                     absPath (["site".toList, "content".toList, "foo".toList] ++
                      ["_index.md".toList])]
          renamed := some (absPath (["site".toList, "content".toList, "foo".toList] ++
                      ["notindex.md".toList]),
                     absPath (["site".toList, "content".toList, "foo".toList] ++
                      ["_index.md".toList])) }
      else { logged := [], renamed := none } :=
  renameContentFiles_index_md ["site".toList, "content".toList, "foo".toList]
    "notindex.md".toList (by decide) (by decide)

/-- C7, the claim refuted: the regular file `/site/content/foo/notindex.md`, whose name
is not `index.md`, is renamed to `/site/content/foo/_index.md`. -/
theorem renameContentFiles_renames_notindex :
    (renameContentFiles indexMdRe "_index.md".toList false
        "/site/content/foo/notindex.md".toList false).renamed
      = some ("/site/content/foo/notindex.md".toList, "/site/content/foo/_index.md".toList) := by
  decide

/-! ## Translation of the Liquid tags -/

/-- The test `contains` decides whether `sub` occurs in the text. -/
theorem contains_iff (s sub : Str) : contains s sub = true ↔ sub <:+: s := by
  induction s with
  | nil =>
    simp only [contains, cutPrefix_isSome_iff]
    simp
  | cons c s ih =>
    simp only [contains, Bool.or_eq_true, cutPrefix_isSome_iff, ih, List.infix_cons_iff]

/-- A text in which `sub` does not occur does not start with a text in which `sub` occurs. -/
theorem cutPrefix_none_of_not_contains (old sub s : Str) (hold : sub <:+: old)
    (h : contains s sub = false) : cutPrefix old s = none := by
  cases hc : cutPrefix old s with
  | none => rfl
  | some r =>
    have hs := (cutPrefix_eq_some_iff old s r).1 hc
    have : contains s sub = true :=
      (contains_iff s sub).2 (hold.trans ⟨[], r, by simp [hs]⟩)
    rw [h] at this
    exact absurd this (by simp)

/-- A text in which `sub` does not occur: nor does it occur after the first rune. -/
theorem contains_tail (sub : Str) (c : Char) (s : Str) (h : contains (c :: s) sub = false) :
    contains s sub = false := by
  simp only [contains, Bool.or_eq_false_iff] at h
  exact h.2

/-- A pattern that starts with a literal has no match in a text where a part of the literal does not occur. -/
theorem findFrom_lit_none (old sub : Str) (r : Regex) (pre s : Str)
    (hold : sub <:+: old) (h : contains s sub = false) :
    findFrom (plain (.lit old) :: r) pre s = none := by
  induction s generalizing pre with
  | nil => simp [findFrom, matchHere, plain, cutPrefix_none_of_not_contains old sub [] hold h]
  | cons c s ih =>
    simp only [findFrom, matchHere, plain,
      cutPrefix_none_of_not_contains old sub (c :: s) hold h]
    exact ih _ (contains_tail sub c s h)

/-- Without a match, `ReplaceAllString` returns the text. -/
theorem replaceAllString_of_find_none (uni : Char → Bool) (re : Regex) (s template : Str)
    (h : find re s = none) : replaceAllString uni re s template = s := by
  simp [replaceAllString, pieces, piecesAux, h]

/-- `ReplaceAllString` returns the text when a part of the leading literal of the pattern does not occur in it. -/
theorem replaceAllString_lit_id (uni : Char → Bool) (old sub : Str) (r : Regex)
    (s template : Str) (hold : sub <:+: old) (h : contains s sub = false) :
    replaceAllString uni (plain (.lit old) :: r) s template = s :=
  replaceAllString_of_find_none _ _ _ _ (findFrom_lit_none old sub r [] s hold h)

/-- `strings.Replace` returns the text when a part of `old` does not occur in it. -/
theorem replaceFirst_id (old sub new s : Str) (hold : sub <:+: old)
    (h : contains s sub = false) : replaceFirst old new s = s := by
  induction s with
  | nil => simp [replaceFirst]
  | cons c s ih =>
    simp only [replaceFirst, cutPrefix_none_of_not_contains old sub _ hold h]
    rw [ih (contains_tail sub c s h)]

/-- A text without `{%` is left as it is by the literal repair of the tooltip. -/
theorem fixTooltipTypo_id (path s : Str) (h : contains s "\x7b%".toList = false) :
    fixTooltipTypo path s = (s, none) := by
  unfold fixTooltipTypo
  rw [replaceFirst_id _ "\x7b%".toList _ s (by decide) h]

/-- A match splits the text: the matched text and the text after it. -/
theorem starGreedy_split (p : Char → Bool) (cap : Bool) (k : Str → Option Match)
    (hk : ∀ s m, k s = some m → s = m.whole ++ m.rest) (s acc : Str) (m : Match)
    (h : starGreedy p cap k acc s = some m) : acc ++ s = m.whole ++ m.rest := by
  induction s generalizing acc with
  | nil =>
    simp only [starGreedy, Option.map_eq_some'] at h
    obtain ⟨m1, hm1, rfl⟩ := h
    simp [Match.push, ← hk _ _ hm1]
  | cons c s ih =>
    have hstop : (k (c :: s)).map (Match.push cap acc) = some m →
        acc ++ c :: s = m.whole ++ m.rest := by
      intro h
      simp only [Option.map_eq_some'] at h
      obtain ⟨m1, hm1, rfl⟩ := h
      simp [Match.push, ← hk _ _ hm1]
    simp only [starGreedy] at h
    split at h
    · split at h
      · rename_i m1 h1
        cases h
        simpa using ih _ h1
      · exact hstop h
    · exact hstop h

/-- A match splits the text: the matched text and the text after it. -/
theorem starLazy_split (p : Char → Bool) (cap : Bool) (k : Str → Option Match)
    (hk : ∀ s m, k s = some m → s = m.whole ++ m.rest) (s acc : Str) (m : Match)
    (h : starLazy p cap k acc s = some m) : acc ++ s = m.whole ++ m.rest := by
  induction s generalizing acc with
  | nil =>
    simp only [starLazy, Option.map_eq_some'] at h
    obtain ⟨m1, hm1, rfl⟩ := h
    simp [Match.push, ← hk _ _ hm1]
  | cons c s ih =>
    simp only [starLazy] at h
    split at h
    · rename_i m1 h1
      cases h
      simp [Match.push, ← hk _ _ h1]
    · split at h
      · simpa using ih _ h
      · cases h

/-- A match splits the text: the matched text and the text after it. -/
theorem matchHere_split (re : Regex) (s : Str) (m : Match) (h : matchHere re s = some m) :
    s = m.whole ++ m.rest := by
  induction re generalizing s m with
  | nil =>
    simp only [matchHere, Option.some.injEq] at h
    subst h; rfl
  | cons n r ih =>
    obtain ⟨cap, a⟩ := n
    have hpush : ∀ (piece s1 : Str), (matchHere r s1).map (Match.push cap piece) = some m →
        piece ++ s1 = m.whole ++ m.rest := by
      intro piece s1 h
      simp only [Option.map_eq_some'] at h
      obtain ⟨m1, hm1, rfl⟩ := h
      simp [Match.push, ← ih _ _ hm1]
    cases a with
    | lit l =>
      simp only [matchHere] at h
      split at h
      · rename_i s1 h1
        rw [(cutPrefix_eq_some_iff _ _ _).1 h1]
        exact hpush _ _ h
      · cases h
    | one p =>
      cases s with
      | nil => simp [matchHere] at h
      | cons c s1 =>
        simp only [matchHere] at h
        split at h
        · exact hpush [c] s1 h
        · cases h
    | star p =>
      simp only [matchHere] at h
      simpa using starGreedy_split p cap _ ih s [] m h
    | lazyStar p =>
      simp only [matchHere] at h
      simpa using starLazy_split p cap _ ih s [] m h
    | opt p =>
      cases s with
      | nil =>
        simp only [matchHere] at h
        simpa using hpush [] [] h
      | cons c s1 =>
        simp only [matchHere] at h
        split at h
        · split at h
          · rename_i m1 h1
            cases h
            simp [Match.push, ← ih _ _ h1]
          · simpa using hpush [] (c :: s1) h
        · simpa using hpush [] (c :: s1) h
    | eot =>
      cases s with
      | nil =>
        simp only [matchHere] at h
        simpa using hpush [] [] h
      | cons c s1 => simp [matchHere] at h

/-- The leftmost match splits the text: the text before it, the matched text and the
text after it. -/
theorem findFrom_split (re : Regex) (s pre : Str) (f : Found)
    (h : findFrom re pre s = some f) : pre ++ s = f.pre ++ (f.m.whole ++ f.m.rest) := by
  induction s generalizing pre with
  | nil =>
    simp only [findFrom, Option.map_eq_some'] at h
    obtain ⟨m, hm, rfl⟩ := h
    simp [← matchHere_split _ _ _ hm]
  | cons c s ih =>
    simp only [findFrom] at h
    split at h
    · rename_i m hm
      cases h
      simp [← matchHere_split _ _ _ hm]
    · simpa using ih _ h

/-- The text passed before the search is put in front of the text before the match. -/
theorem findFrom_pre (re : Regex) (s pre : Str) :
    findFrom re pre s = (findFrom re [] s).map (fun f => ⟨pre ++ f.pre, f.m⟩) := by
  induction s generalizing pre with
  | nil =>
    simp only [findFrom, Option.map_map]
    cases matchHere re [] <;> simp
  | cons c s ih =>
    simp only [findFrom]
    cases matchHere re (c :: s) with
    | some m => simp
    | none =>
      simp only [List.nil_append]
      rw [ih (pre ++ [c]), ih [c], Option.map_map]
      cases findFrom re [] s <;> simp

/-- A pattern that starts with a non-empty literal has no empty match. -/
theorem matchHere_lit_whole (c : Char) (l : Str) (r : Regex) (s : Str) (m : Match)
    (h : matchHere (plain (.lit (c :: l)) :: r) s = some m) : m.whole ≠ [] := by
  simp only [matchHere, plain] at h
  split at h
  · simp only [Option.map_eq_some'] at h
    obtain ⟨m1, _, rfl⟩ := h
    simp [Match.push]
  · cases h

/-- The leftmost match is a match at the start of a final part of the text. -/
theorem findFrom_matchHere (re : Regex) (s pre : Str) (f : Found)
    (h : findFrom re pre s = some f) : ∃ s1, s1 <:+ s ∧ matchHere re s1 = some f.m := by
  induction s generalizing pre with
  | nil =>
    simp only [findFrom, Option.map_eq_some'] at h
    obtain ⟨m, hm, rfl⟩ := h
    exact ⟨[], List.suffix_refl _, hm⟩
  | cons c s ih =>
    simp only [findFrom] at h
    split at h
    · rename_i m hm
      cases h
      exact ⟨c :: s, List.suffix_refl _, hm⟩
    · obtain ⟨s1, hs1, hm⟩ := ih _ h
      exact ⟨s1, hs1.trans (List.suffix_cons c s), hm⟩

/-- For a pattern without empty match, the loop of `replaceAll` does not depend on
its bound, once the bound is more than the length of the text. -/
theorem piecesAux_fuel (re : Regex) (hne : ∀ s m, matchHere re s = some m → m.whole ≠ [])
    (n : Nat) : ∀ (adj : Bool) (s : Str), s.length < n →
      piecesAux re n adj s = piecesAux re (s.length + 1) false s := by
  induction n using Nat.strong_induction_on with
  | _ n ih =>
    intro adj s hs
    cases n with
    | zero => omega
    | succ n =>
      simp only [piecesAux]
      cases hf : find re s with
      | none => rfl
      | some f =>
        obtain ⟨s1, _, hm⟩ := findFrom_matchHere re s [] f hf
        have hw : f.m.whole ≠ [] := hne _ _ hm
        have hsplit := findFrom_split re s [] f hf
        have hlen : f.m.rest.length < s.length := by
          have := congrArg List.length hsplit
          have hpos : 0 < f.m.whole.length := List.length_pos.2 hw
          simp only [List.nil_append, List.length_append] at this
          omega
        simp only [if_neg hw]
        rw [ih n (Nat.lt_succ_self n) true f.m.rest (by omega),
          ih s.length (by omega) true f.m.rest hlen]

/-- The first step of `ReplaceAllString` for a pattern without empty match: the text
before the leftmost match, the replacement of the match, and the result on the
text after the match. -/
theorem replaceAllString_of_find_some (uni : Char → Bool) (re : Regex)
    (hne : ∀ s m, matchHere re s = some m → m.whole ≠ []) (s template : Str) (f : Found)
    (h : find re s = some f) :
    replaceAllString uni re s template
      = f.pre ++ (expand uni f.m template ++ replaceAllString uni re f.m.rest template) := by
  obtain ⟨s1, _, hm⟩ := findFrom_matchHere re s [] f h
  have hw : f.m.whole ≠ [] := hne _ _ hm
  have hsplit := findFrom_split re s [] f h
  have hlen : f.m.rest.length < s.length := by
    have := congrArg List.length hsplit
    have hpos : 0 < f.m.whole.length := List.length_pos.2 hw
    simp only [List.nil_append, List.length_append] at this
    omega
  have h1 : ∀ n, piecesAux re (n + 1) false s
      = .text f.pre :: .hit f.m :: piecesAux re n true f.m.rest := by
    intro n
    simp only [piecesAux, h, if_neg hw]
  unfold replaceAllString pieces
  rw [h1, piecesAux_fuel re hne s.length true f.m.rest hlen]
  simp

/-- The search for a pattern that starts with the literal `w` passes a text in which
no occurrence of `w` starts. -/
theorem findFrom_skip (w : Str) (r : Regex) (x u pre : Str) (h : NoStart w x u) :
    findFrom (plain (.lit w) :: r) pre (x ++ u) = findFrom (plain (.lit w) :: r) (pre ++ x) u := by
  induction x generalizing pre with
  | nil => simp
  | cons c x ih =>
    have h1 : cutPrefix w (c :: (x ++ u)) = none := by
      cases hc : cutPrefix w (c :: (x ++ u)) with
      | none => rfl
      | some rest =>
        have hp : w <+: (c :: x) ++ u :=
          (cutPrefix_isSome_iff w _).1 (by simp [hc])
        exact absurd hp (h [] (c :: x) rfl (by simp))
    have h2 : NoStart w x u := by
      intro x1 x2 hx hx2
      exact h (c :: x1) x2 (by simp [hx]) hx2
    have step : findFrom (plain (.lit w) :: r) pre (c :: (x ++ u))
        = findFrom (plain (.lit w) :: r) (pre ++ [c]) (x ++ u) := by
      simp only [findFrom, matchHere, plain, h1]
    show findFrom (plain (.lit w) :: r) pre (c :: (x ++ u)) = _
    rw [step, ih _ h2]
    simp

/-- `ReplaceAllString` with a pattern that starts with a non-empty literal leaves a
text in which no occurrence of the literal starts, and goes on after it. -/
theorem replaceAllString_skip (uni : Char → Bool) (c : Char) (l : Str) (r : Regex)
    (x u template : Str) (h : NoStart (c :: l) x u) :
    replaceAllString uni (plain (.lit (c :: l)) :: r) (x ++ u) template
      = x ++ replaceAllString uni (plain (.lit (c :: l)) :: r) u template := by
  have hne := matchHere_lit_whole c l r
  have hf : find (plain (.lit (c :: l)) :: r) (x ++ u)
      = (find (plain (.lit (c :: l)) :: r) u).map (fun f => ⟨x ++ f.pre, f.m⟩) := by
    unfold find
    rw [findFrom_skip _ _ _ _ _ h, findFrom_pre]
    simp
  cases hu : find (plain (.lit (c :: l)) :: r) u with
  | none =>
    rw [hu] at hf
    rw [replaceAllString_of_find_none _ _ _ _ hf, replaceAllString_of_find_none _ _ _ _ hu]
  | some f =>
    rw [hu] at hf
    rw [replaceAllString_of_find_some uni _ hne _ _ _ hf,
      replaceAllString_of_find_some uni _ hne _ _ _ hu]
    simp

/-- `ReplaceAllString` with a pattern that starts with a non-empty literal, on a text
that starts with a match: the match is replaced, and the function goes on after
it. -/
theorem replaceAllString_hit (uni : Char → Bool) (c : Char) (l : Str) (r : Regex)
    (s template : Str) (m : Match)
    (h : matchHere (plain (.lit (c :: l)) :: r) s = some m) :
    replaceAllString uni (plain (.lit (c :: l)) :: r) s template
      = expand uni m template ++ replaceAllString uni (plain (.lit (c :: l)) :: r) m.rest template := by
  have hne := matchHere_lit_whole c l r
  have hf : find (plain (.lit (c :: l)) :: r) s = some ⟨[], m⟩ := by
    unfold find
    cases s with
    | nil => simp [findFrom, h]
    | cons d s => simp [findFrom, h]
  rw [replaceAllString_of_find_some uni _ hne _ _ _ hf]
  simp

/-- A literal at the start of the text is matched, and the match goes on after it. -/
theorem matchHere_lit_append (cap : Bool) (l : Str) (r : Regex) (s : Str) :
    matchHere (⟨cap, .lit l⟩ :: r) (l ++ s) = (matchHere r s).map (Match.push cap l) := by
  simp only [matchHere, (cutPrefix_eq_some_iff l (l ++ s) s).2 rfl]

/-- A lazy star stops at the first place where the rest of the pattern matches. -/
theorem starLazy_stop (p : Char → Bool) (cap : Bool) (k : Str → Option Match)
    (a v acc : Str) (m : Match) (hp : ∀ c ∈ a, p c = true)
    (hk : ∀ a1 a2, a = a1 ++ a2 → a2 ≠ [] → k (a2 ++ v) = none) (hv : k v = some m) :
    starLazy p cap k acc (a ++ v) = some (m.push cap (acc ++ a)) := by
  induction a generalizing acc with
  | nil =>
    cases v with
    | nil => simp [starLazy, hv]
    | cons c s => simp [starLazy, hv]
  | cons c a ih =>
    have h1 : k (c :: (a ++ v)) = none := hk [] (c :: a) rfl (by simp)
    have h2 : p c = true := hp c (by simp)
    have step : starLazy p cap k acc (c :: (a ++ v))
        = starLazy p cap k (acc ++ [c]) (a ++ v) := by
      simp only [starLazy, h1, h2, if_true]
    show starLazy p cap k acc (c :: (a ++ v)) = _
    rw [step, ih (acc ++ [c]) (fun d hd => hp d (by simp [hd]))
      (fun a1 a2 ha ha2 => hk (c :: a1) a2 (by simp [ha]) ha2)]
    simp

/-- A lazy star in a pattern, on a text in which the rest of the pattern matches
first after the text `a` of runes of the class. -/
theorem matchHere_lazyStar (p : Char → Bool) (cap : Bool) (r : Regex) (a v : Str) (m : Match)
    (hp : ∀ c ∈ a, p c = true)
    (hk : ∀ a1 a2, a = a1 ++ a2 → a2 ≠ [] → matchHere r (a2 ++ v) = none)
    (hv : matchHere r v = some m) :
    matchHere (⟨cap, .lazyStar p⟩ :: r) (a ++ v) = some (m.push cap a) := by
  simp only [matchHere]
  rw [starLazy_stop p cap (matchHere r) a v [] m hp hk hv]
  simp

/-- The rest of a pattern fails where its leading literal does not start. -/
theorem matchHere_lit_none (cap : Bool) (w : Str) (r : Regex) (s : Str) (h : ¬ w <+: s) :
    matchHere (⟨cap, .lit w⟩ :: r) s = none := by
  cases hc : cutPrefix w s with
  | none => simp [matchHere, hc]
  | some rest => exact absurd ((cutPrefix_isSome_iff w s).1 (by simp [hc])) h

/-- A greedy star that matches: the rest of the pattern matches a final part of the text. -/
theorem starGreedy_cont (p : Char → Bool) (cap : Bool) (k : Str → Option Match)
    (s acc : Str) (m : Match) (h : starGreedy p cap k acc s = some m) :
    ∃ s1 m1, s1 <:+ s ∧ k s1 = some m1 := by
  induction s generalizing acc m with
  | nil =>
    simp only [starGreedy, Option.map_eq_some'] at h
    obtain ⟨m1, hm1, _⟩ := h
    exact ⟨[], m1, List.suffix_refl _, hm1⟩
  | cons c s ih =>
    have hstop : (k (c :: s)).map (Match.push cap acc) = some m →
        ∃ s1 m1, s1 <:+ c :: s ∧ k s1 = some m1 := by
      intro h
      simp only [Option.map_eq_some'] at h
      obtain ⟨m1, hm1, _⟩ := h
      exact ⟨c :: s, m1, List.suffix_refl _, hm1⟩
    simp only [starGreedy] at h
    split at h
    · split at h
      · rename_i m1 h1
        obtain ⟨s1, m2, hs1, hk1⟩ := ih _ _ h1
        exact ⟨s1, m2, hs1.trans (List.suffix_cons c s), hk1⟩
      · exact hstop h
    · exact hstop h

/-- A lazy star that matches: the rest of the pattern matches a final part of the text. -/
theorem starLazy_cont (p : Char → Bool) (cap : Bool) (k : Str → Option Match)
    (s acc : Str) (m : Match) (h : starLazy p cap k acc s = some m) :
    ∃ s1 m1, s1 <:+ s ∧ k s1 = some m1 := by
  induction s generalizing acc with
  | nil =>
    simp only [starLazy, Option.map_eq_some'] at h
    obtain ⟨m1, hm1, _⟩ := h
    exact ⟨[], m1, List.suffix_refl _, hm1⟩
  | cons c s ih =>
    simp only [starLazy] at h
    split at h
    · rename_i m1 h1
      exact ⟨c :: s, m1, List.suffix_refl _, h1⟩
    · split at h
      · obtain ⟨s1, m2, hs1, hk1⟩ := ih _ h
        exact ⟨s1, m2, hs1.trans (List.suffix_cons c s), hk1⟩
      · cases h

/-- A pattern that matches: the pattern without its first piece matches a final part
of the text. -/
theorem matchHere_cont (n : Node) (r : Regex) (s : Str) (m : Match)
    (h : matchHere (n :: r) s = some m) : ∃ s1 m1, s1 <:+ s ∧ matchHere r s1 = some m1 := by
  obtain ⟨cap, a⟩ := n
  have hpush : ∀ (piece s1 : Str), s1 <:+ s →
      (matchHere r s1).map (Match.push cap piece) = some m →
      ∃ s1 m1, s1 <:+ s ∧ matchHere r s1 = some m1 := by
    intro piece s1 hs h
    simp only [Option.map_eq_some'] at h
    obtain ⟨m1, hm1, _⟩ := h
    exact ⟨s1, m1, hs, hm1⟩
  cases a with
  | lit l =>
    simp only [matchHere] at h
    split at h
    · rename_i s1 h1
      exact hpush l s1 ⟨l, ((cutPrefix_eq_some_iff _ _ _).1 h1).symm⟩ h
    · cases h
  | one p =>
    cases s with
    | nil => simp [matchHere] at h
    | cons c s1 =>
      simp only [matchHere] at h
      split at h
      · exact hpush [c] s1 (List.suffix_cons c s1) h
      · cases h
  | star p =>
    simp only [matchHere] at h
    exact starGreedy_cont p cap _ s [] m h
  | lazyStar p =>
    simp only [matchHere] at h
    exact starLazy_cont p cap _ s [] m h
  | opt p =>
    cases s with
    | nil =>
      simp only [matchHere] at h
      exact hpush [] [] (List.suffix_refl _) h
    | cons c s1 =>
      simp only [matchHere] at h
      split at h
      · split at h
        · rename_i m1 h1
          exact ⟨s1, m1, List.suffix_cons c s1, h1⟩
        · exact hpush [] (c :: s1) (List.suffix_refl _) h
      · exact hpush [] (c :: s1) (List.suffix_refl _) h
  | eot =>
    cases s with
    | nil =>
      simp only [matchHere] at h
      exact hpush [] [] (List.suffix_refl _) h
    | cons c s1 => simp [matchHere] at h

/-- A pattern that ends with a literal matches only a text in which the literal occurs. -/
theorem matchHere_last_lit (r : Regex) (w s : Str) (m : Match)
    (h : matchHere (r ++ [plain (.lit w)]) s = some m) : w <:+: s := by
  induction r generalizing s m with
  | nil =>
    simp only [List.nil_append, matchHere, plain] at h
    split at h
    · rename_i s1 h1
      exact ⟨[], s1, by simp [(cutPrefix_eq_some_iff _ _ _).1 h1]⟩
    · cases h
  | cons n r ih =>
    obtain ⟨s1, m1, hs1, hm1⟩ := matchHere_cont n _ s m h
    exact (ih s1 m1 hm1).trans hs1.isInfix

/-- A pattern that ends with a literal has no match in a text without the literal. -/
theorem find_none_of_last_lit (r : Regex) (w s : Str) (h : contains s w = false) :
    find (r ++ [plain (.lit w)]) s = none := by
  cases hf : find (r ++ [plain (.lit w)]) s with
  | none => rfl
  | some f =>
    obtain ⟨s1, hs1, hm⟩ := findFrom_matchHere _ s [] f hf
    have : contains s w = true :=
      (contains_iff s w).2 ((matchHere_last_lit r w s1 f.m hm).trans hs1.isInfix)
    rw [h] at this
    cases this

/-- Two texts of which neither starts with the other are not the starts of one text. -/
theorem not_prefix_of_clash (a b u : Str) (h : clash a b = true) : ¬ a <+: b ++ u := by
  intro hp
  simp only [clash, Bool.and_eq_true, Option.isNone_iff_eq_none] at h
  rcases List.prefix_or_prefix_of_prefix hp (List.prefix_append b u) with h1 | h1
  · have := (cutPrefix_isSome_iff a b).2 h1
    rw [h.1] at this
    cases this
  · have := (cutPrefix_isSome_iff b a).2 h1
    rw [h.2] at this
    cases this

/-- No occurrence of `w` starts in a text that passes the test `apart`. -/
theorem noStart_of_apart (w x u : Str) (h : apart w x = true) : NoStart w x u := by
  intro x1 x2 hx hx2
  simp only [apart, List.all_eq_true, List.mem_tails, Bool.or_eq_true] at h
  rcases h x2 ⟨x1, hx.symm⟩ with h1 | h1
  · cases x2 with
    | nil => exact absurd rfl hx2
    | cons c x2 => simp at h1
  · exact not_prefix_of_clash w x2 u h1

/-- No occurrence of `w` starts in a text without `w`, when the rune after the text
is not a rune of `w` after its first one. -/
theorem noStart_of_next (w x u : Str) (hx : contains x w = false)
    (hu : ∀ c, u.head? = some c → c ∉ w.tail) : NoStart w x u := by
  intro x1 x2 hx12 hx2 hp
  have hno : ¬ w <+: x2 := by
    intro h1
    obtain ⟨t, ht⟩ := h1
    have : contains x w = true :=
      (contains_iff x w).2 ⟨x1, t, by rw [hx12, ← ht]; simp⟩
    rw [hx] at this
    cases this
  rcases List.prefix_or_prefix_of_prefix hp (List.prefix_append x2 u) with h1 | h1
  · exact hno h1
  · obtain ⟨w2, hw2⟩ := h1
    subst hw2
    have h2 : w2 <+: u := (List.prefix_append_right_inj x2).1 hp
    cases w2 with
    | nil => exact hno (by simp)
    | cons d w2 =>
      cases u with
      | nil => simp at h2
      | cons e u =>
        have hde : d = e := by
          rcases h2 with ⟨t, ht⟩
          simp at ht
          exact ht.1
        have := hu e rfl
        apply this
        subst hde
        cases x2 with
        | nil => exact absurd rfl hx2
        | cons f x2 => simp

/-- No occurrence of `w` starts in the first of two texts nor in the second: none
starts in the two texts put together. -/
theorem noStart_append (w x y u : Str) (hx : NoStart w x (y ++ u)) (hy : NoStart w y u) :
    NoStart w (x ++ y) u := by
  intro x1 x2 h hx2
  rcases List.append_eq_append_iff.1 h with ⟨a, ha1, ha2⟩ | ⟨c, hc1, hc2⟩
  · -- x1 = x ++ a, y = a ++ x2
    exact hy a x2 ha2 hx2
  · -- x = x1 ++ c, x2 = c ++ y
    cases c with
    | nil =>
      simp only [List.nil_append] at hc2
      subst hc2
      exact hy [] _ rfl hx2
    | cons e c =>
      subst hc2
      have := hx x1 (e :: c) hc1 (by simp)
      simpa using this

/-- A text in which no occurrence of `w` starts, before a text without `w`: `w` does
not occur in the two texts put together. -/
theorem contains_append_false (w x u : Str) (h : NoStart w x u) (hu : contains u w = false) :
    contains (x ++ u) w = false := by
  induction x with
  | nil => simpa using hu
  | cons c x ih =>
    have h1 : (cutPrefix w (c :: (x ++ u))).isSome = false := by
      cases hc : (cutPrefix w (c :: (x ++ u))).isSome with
      | false => rfl
      | true => exact absurd ((cutPrefix_isSome_iff w _).1 hc) (h [] (c :: x) rfl (by simp))
    have h2 : NoStart w x u := fun x1 x2 hx hx2 => h (c :: x1) x2 (by simp [hx]) hx2
    show contains (c :: (x ++ u)) w = false
    simp only [contains, h1, ih h2, Bool.or_self]

/-- No occurrence of a text that starts with `{%` starts in a text without `{%`,
when the text that follows does not go on as the occurrence would. -/
theorem noStart_of_no_tag (w a u : Str) (ha : contains a "\x7b%".toList = false)
    (hw : "\x7b%".toList <+: w) (hu : ¬ w.tail <+: u) : NoStart w a u := by
  intro a1 a2 h ha2 hp
  obtain ⟨w1, hw1⟩ := hw
  subst hw1
  cases a2 with
  | nil => exact absurd rfl ha2
  | cons e a2 =>
    cases a2 with
    | nil =>
      apply hu
      obtain ⟨t, ht⟩ := hp
      simp only [String.toList, List.cons_append, List.nil_append] at ht ⊢
      simp at ht
      exact ⟨t, by simp [ht.2]⟩
    | cons e2 a2 =>
      obtain ⟨t, ht⟩ := hp
      simp at ht
      have : contains a "\x7b%".toList = true := by
        refine (contains_iff a _).2 ⟨a1, a2, ?_⟩
        rw [h, ← ht.1, ← ht.2.1]
        simp
      rw [ha] at this
      cases this

/-- No occurrence of `w` starts in a tag, the literal `l1`, the argument `a` and the
literal `l2`, when the argument has no `{%` and `w`, which starts with `{%`, passes
the tests against the two literals. -/
theorem noStart_tag (w l1 a l2 u : Str) (ha : contains a "\x7b%".toList = false)
    (hw : "\x7b%".toList <+: w) (h1 : apart w l1 = true) (h2 : clash w.tail l2 = true)
    (h3 : apart w l2 = true) : NoStart w (l1 ++ (a ++ l2)) u := by
  refine noStart_append w l1 (a ++ l2) u (noStart_of_apart w l1 _ h1) ?_
  refine noStart_append w a l2 u ?_ (noStart_of_apart w l2 _ h3)
  exact noStart_of_no_tag w a (l2 ++ u) ha hw (not_prefix_of_clash _ _ _ h2)

/-- The replacement of a tooltip tag: the shortcode with the argument of the tag. -/
theorem expand_tooltip (uni : Char → Bool) (w a v : Str) :
    expand uni ⟨w, [a], v⟩ "\x7b\x7b< glossary_tooltip$1>\x7d\x7d".toList
      = "\x7b\x7b< glossary_tooltip".toList ++ (a ++ ">\x7d\x7d".toList) := rfl

/-- The replacement of a definition tag: the shortcode with the argument of the tag. -/
theorem expand_definition (uni : Char → Bool) (w a v : Str) :
    expand uni ⟨w, [a], v⟩ "\x7b\x7b< glossary_definition$1>\x7d\x7d".toList
      = "\x7b\x7b< glossary_definition".toList ++ (a ++ ">\x7d\x7d".toList) := rfl

/-- The replacement of a code-include tag: the shortcode with the argument of the tag. -/
theorem expand_codeInclude (uni : Char → Bool) (w a v : Str) :
    expand uni ⟨w, [a], v⟩ "\x7b\x7b< code$1>\x7d\x7d".toList
      = "\x7b\x7b< code".toList ++ (a ++ ">\x7d\x7d".toList) := rfl

/-- The replacement of a capture: its name and its body between the two shortcodes. -/
theorem expand_capture (uni : Char → Bool) (w n b v : Str) :
    expand uni ⟨w, [n, b], v⟩
        "\x7b\x7b% capture $1 %\x7d\x7d$2\x7b\x7b% /capture %\x7d\x7d".toList
      = "\x7b\x7b% capture ".toList ++ (n ++ (" %\x7d\x7d".toList ++
          (b ++ "\x7b\x7b% /capture %\x7d\x7d".toList))) := rfl

/-- No occurrence starts in the empty text. -/
theorem noStart_nil (w u : Str) : NoStart w [] u := by
  intro x1 x2 h hx2
  exact absurd (List.append_eq_nil.1 h.symm).2 hx2

/-- The text of a sequence of pairs: the first pair, then the others. -/
theorem segsText_cons {α : Type} (f : α → Str) (p : Str × α) (segs : List (Str × α)) :
    segsText f (p :: segs) = p.1 ++ (f p.2 ++ segsText f segs) := by
  simp [segsText]

/-- A rewriting `R` that passes the texts in which no occurrence of `w` starts, on
a sequence of plain texts and items: when `R` rewrites each item by itself, it
rewrites the sequence item by item. -/
theorem segsText_rewrite {α : Type} (R : Str → Str) (w : Str) (before after : α → Str)
    (hskip : ∀ x u, NoStart w x u → R (x ++ u) = x ++ R u)
    (hw : '\x7b' ∉ w.tail) (segs : List (Str × α))
    (hplain : ∀ p ∈ segs, contains p.1 w = false)
    (hhead : ∀ p ∈ segs, ∀ v, (before p.2 ++ v).head? = some '\x7b')
    (hitem : ∀ p ∈ segs, ∀ v, R (before p.2 ++ v) = after p.2 ++ R v) (u : Str) :
    R (segsText before segs ++ u) = segsText after segs ++ R u := by
  induction segs with
  | nil => simp [segsText]
  | cons p rest ih =>
    have e : segsText before (p :: rest) ++ u
        = p.1 ++ (before p.2 ++ (segsText before rest ++ u)) := by
      rw [segsText_cons]; simp only [List.append_assoc]
    have hns : NoStart w p.1 (before p.2 ++ (segsText before rest ++ u)) :=
      noStart_of_next w p.1 _ (hplain p (by simp)) (by
        intro c hc
        rw [hhead p (by simp)] at hc
        cases hc
        exact hw)
    rw [e, hskip _ _ hns, hitem p (by simp),
      ih (fun q hq => hplain q (by simp [hq])) (fun q hq => hhead q (by simp [hq]))
        (fun q hq => hitem q (by simp [hq])), segsText_cons]
    simp only [List.append_assoc]

/-- No occurrence of `w` starts in a sequence of plain texts and items, when none
starts in an item. -/
theorem segsText_noStart {α : Type} (w : Str) (f : α → Str) (hw : '\x7b' ∉ w.tail)
    (segs : List (Str × α)) (hplain : ∀ p ∈ segs, contains p.1 w = false)
    (hhead : ∀ p ∈ segs, ∀ v, (f p.2 ++ v).head? = some '\x7b')
    (hitem : ∀ p ∈ segs, ∀ v, NoStart w (f p.2) v) (u : Str) :
    NoStart w (segsText f segs) u := by
  induction segs with
  | nil => exact noStart_nil w u
  | cons p rest ih =>
    rw [segsText_cons]
    refine noStart_append w p.1 _ u ?_ (noStart_append w (f p.2) _ u (hitem p (by simp) _)
      (ih (fun q hq => hplain q (by simp [hq])) (fun q hq => hhead q (by simp [hq]))
        (fun q hq => hitem q (by simp [hq]))))
    refine noStart_of_next w p.1 _ (hplain p (by simp)) ?_
    intro c hc
    rw [List.append_assoc, hhead p (by simp)] at hc
    cases hc
    exact hw

/-- A pattern `OPENER(.*?)%}` on a text that starts with the opener, an argument on
one line without `%}`, and `%}`: the match is this tag, and its group the argument. -/
theorem matchHere_tag (o a v : Str) (ha : ∀ c ∈ a, dot c = true)
    (hc : contains a "%\x7d".toList = false) :
    matchHere [plain (.lit o), group (.lazyStar dot), plain (.lit "%\x7d".toList)]
        (o ++ (a ++ ("%\x7d".toList ++ v)))
      = some ⟨o ++ (a ++ ("%\x7d".toList ++ [])), [a], v⟩ := by
  have hlast : matchHere [plain (.lit "%\x7d".toList)] ("%\x7d".toList ++ v)
      = some ⟨"%\x7d".toList ++ [], [], v⟩ :=
    (matchHere_lit_append false _ _ _).trans rfl
  have hk : ∀ a1 a2, a = a1 ++ a2 → a2 ≠ [] →
      matchHere [plain (.lit "%\x7d".toList)] (a2 ++ ("%\x7d".toList ++ v)) = none := by
    intro a1 a2 h1 h2
    refine matchHere_lit_none false _ _ _ ?_
    refine noStart_of_next "%\x7d".toList a _ hc ?_ a1 a2 h1 h2
    intro c hc
    have : c = '%' := by simpa using hc.symm
    subst this
    decide
  have hstar := matchHere_lazyStar dot true _ a _ _ ha hk hlast
  refine (matchHere_lit_append false o _ _).trans ?_
  show Option.map _ (matchHere (⟨true, .lazyStar dot⟩ :: [plain (.lit "%\x7d".toList)]) _) = _
  rw [hstar]
  rfl

/-- The pattern of the code include on a text that starts with a code-include tag. -/
theorem matchHere_codeInclude (a v : Str) (ha : ∀ c ∈ a, dot c = true)
    (hc : contains a "%\x7d".toList = false) :
    ∃ w, matchHere codeIncludeRe ("\x7b% include code.html".toList ++ (a ++ ("%\x7d".toList ++ v)))
      = some ⟨w, [a], v⟩ := by
  have h := matchHere_tag "html".toList a v ha hc
  have e : "\x7b% include code.html".toList ++ (a ++ ("%\x7d".toList ++ v))
      = "\x7b% include code".toList ++ ('.' :: ("html".toList ++ (a ++ ("%\x7d".toList ++ v)))) :=
    rfl
  have hm : matchHere codeIncludeRe
      ("\x7b% include code".toList ++ ('.' :: ("html".toList ++ (a ++ ("%\x7d".toList ++ v)))))
      = some ((Match.push false ['.']
          ⟨"html".toList ++ (a ++ ("%\x7d".toList ++ [])), [a], v⟩).push false
            "\x7b% include code".toList) :=
    (matchHere_lit_append false _ _ _).trans
      (congrArg (Option.map (Match.push false "\x7b% include code".toList))
        (congrArg (Option.map (Match.push false ['.'])) h))
  rw [e]
  exact ⟨_, hm⟩

/-- The pattern of the captures on a text that starts with a capture: a name without
` %}`, and a body in which no `{% endcapture %}` starts. -/
theorem matchHere_capture (n b v : Str) (hn : contains n " %\x7d".toList = false)
    (hb : NoStart "\x7b% endcapture %\x7d".toList b ("\x7b% endcapture %\x7d".toList ++ v)) :
    ∃ w, matchHere captureRe ("\x7b% capture ".toList ++ (n ++ (" %\x7d".toList ++
        (b ++ ("\x7b% endcapture %\x7d".toList ++ v)))))
      = some ⟨w, [n, b], v⟩ := by
  have hlast : matchHere [plain (.lit "\x7b% endcapture %\x7d".toList)]
      ("\x7b% endcapture %\x7d".toList ++ v)
      = some ⟨"\x7b% endcapture %\x7d".toList ++ [], [], v⟩ :=
    (matchHere_lit_append false _ _ _).trans rfl
  have h2 := matchHere_lazyStar dotAll true _ b _ _ (fun _ _ => rfl)
    (fun a1 a2 h1 h2 => matchHere_lit_none false _ _ _ (hb a1 a2 h1 h2)) hlast
  have h3 : matchHere [plain (.lit " %\x7d".toList), group (.lazyStar dotAll),
        plain (.lit "\x7b% endcapture %\x7d".toList)]
      (" %\x7d".toList ++ (b ++ ("\x7b% endcapture %\x7d".toList ++ v)))
      = some ((Match.push true b ⟨"\x7b% endcapture %\x7d".toList ++ [], [], v⟩).push false
          " %\x7d".toList) := by
    exact (matchHere_lit_append false _ _ _).trans
      (congrArg (Option.map (Match.push false " %\x7d".toList)) h2)
  have hk : ∀ a1 a2, n = a1 ++ a2 → a2 ≠ [] →
      matchHere [plain (.lit " %\x7d".toList), group (.lazyStar dotAll),
        plain (.lit "\x7b% endcapture %\x7d".toList)]
        (a2 ++ (" %\x7d".toList ++ (b ++ ("\x7b% endcapture %\x7d".toList ++ v)))) = none := by
    intro a1 a2 h1 h2
    refine matchHere_lit_none false _ _ _ ?_
    refine noStart_of_next " %\x7d".toList n _ hn ?_ a1 a2 h1 h2
    intro c hc
    have : c = ' ' := by simpa using hc.symm
    subst this
    decide
  have h4 := matchHere_lazyStar dotAll true _ n _ _ (fun _ _ => rfl) hk h3
  exact ⟨_, (matchHere_lit_append false _ _ _).trans
    (congrArg (Option.map (Match.push false "\x7b% capture ".toList)) h4)⟩

/-- Every form of a tag starts with a brace. -/
theorem tag_text_head (k : Nat) (t : Tag) (v : Str) : (t.text k ++ v).head? = some '\x7b' := by
  cases t <;> simp only [Tag.text] <;> split <;> rfl

/-- Every form of a block starts with a brace. -/
theorem block_text_head (k : Nat) (b : Block) (v : Str) :
    (b.text k ++ v).head? = some '\x7b' := by
  cases b with
  | tag t => exact tag_text_head k t v
  | capture n body last => simp only [Block.text]; split <;> rfl

/-- The three last fixers and the repetition see every tag in its shortcode form. -/
theorem Tag.text_of_three_le (k : Nat) (hk : 3 ≤ k) (t : Tag) : t.text k = t.shortcode := by
  cases t <;> simp only [Tag.text, Tag.fixer] <;> rw [if_pos (by omega)]

/-- None of the texts of `tagWords` occurs in a plain text. -/
theorem contains_of_isPlain (t w : Str) (h : isPlain t = true) (hw : w ∈ tagWords) :
    contains t w = false := by
  simp only [isPlain, List.all_eq_true] at h
  simpa using h w hw

/-- The argument of a well-formed tag. -/
theorem Tag.wf_iff (t : Tag) :
    t.wf = true ↔ (∀ c ∈ t.arg, dot c = true) ∧ contains t.arg "\x7b%".toList = false ∧
      contains t.arg "%\x7d".toList = false := by
  simp only [Tag.wf, Bool.and_eq_true, List.all_eq_true, Bool.not_eq_true', and_assoc]

/-- No occurrence of a text of `tagWords` starts in the shortcode form of a
well-formed tag. -/
theorem Tag.shortcode_noStart (w : Str) (hw : w ∈ tagWords) (t : Tag) (ht : t.wf = true)
    (v : Str) : NoStart w t.shortcode v := by
  have ha := ((Tag.wf_iff t).1 ht).2.1
  simp only [tagWords, List.mem_cons, List.mem_singleton, List.not_mem_nil, or_false] at hw
  rcases hw with rfl | rfl | rfl | rfl | rfl <;> cases t <;>
    exact noStart_tag _ _ _ _ _ ha (by decide) (by decide) (by decide) (by decide)

/-- The chain of the four fixers, written out. -/
theorem translateTags_eq (uni : Char → Bool) (path s : Str) :
    translateTags uni path s
      = (replaceCaptures uni path (fixCodeInclude uni path (fixDefinition uni path
          (fixTooltip uni path s).1).1).1).1 := rfl

/-- The fixer of the tooltips passes a text in which no opener of a tooltip starts. -/
theorem fixTooltip_skip (uni : Char → Bool) (path x u : Str)
    (h : NoStart "\x7b% glossary_tooltip".toList x u) :
    (fixTooltip uni path (x ++ u)).1 = x ++ (fixTooltip uni path u).1 :=
  replaceAllString_skip uni '\x7b' "% glossary_tooltip".toList _ x u _ h

/-- The fixer of the definitions passes a text in which no opener of a definition starts. -/
theorem fixDefinition_skip (uni : Char → Bool) (path x u : Str)
    (h : NoStart "\x7b% glossary_definition".toList x u) :
    (fixDefinition uni path (x ++ u)).1 = x ++ (fixDefinition uni path u).1 :=
  replaceAllString_skip uni '\x7b' "% glossary_definition".toList _ x u _ h

/-- The fixer of the code includes passes a text in which no opener of a code include
starts. -/
theorem fixCodeInclude_skip (uni : Char → Bool) (path x u : Str)
    (h : NoStart "\x7b% include code".toList x u) :
    (fixCodeInclude uni path (x ++ u)).1 = x ++ (fixCodeInclude uni path u).1 :=
  replaceAllString_skip uni '\x7b' "% include code".toList _ x u _ h

/-- The fixer of the captures passes a text in which no opener of a capture starts. -/
theorem replaceCaptures_skip (uni : Char → Bool) (path x u : Str)
    (h : NoStart "\x7b% capture ".toList x u) :
    (replaceCaptures uni path (x ++ u)).1 = x ++ (replaceCaptures uni path u).1 :=
  replaceAllString_skip uni '\x7b' "% capture ".toList _ x u _ h

/-- The fixer of the tooltips on a well-formed tag: a tooltip gets its shortcode
form, another tag is passed. -/
theorem fixTooltip_tag (uni : Char → Bool) (path : Str) (t : Tag) (ht : t.wf = true) (v : Str) :
    (fixTooltip uni path (t.text 0 ++ v)).1 = t.text 1 ++ (fixTooltip uni path v).1 := by
  obtain ⟨h1, h2, h3⟩ := (Tag.wf_iff t).1 ht
  cases t with
  | tooltip a =>
    have hm := matchHere_tag "\x7b% glossary_tooltip".toList a v h1 h3
    have h := replaceAllString_hit uni '\x7b' "% glossary_tooltip".toList _ _
      "\x7b\x7b< glossary_tooltip$1>\x7d\x7d".toList _ hm
    have e : Tag.text 0 (.tooltip a) ++ v
        = "\x7b% glossary_tooltip".toList ++ (a ++ ("%\x7d".toList ++ v)) := by
      rw [Tag.text, if_neg (by simp [Tag.fixer])]
      simp only [Tag.liquid, List.append_assoc]
    rw [e]
    exact h
  | definition a =>
    exact fixTooltip_skip uni path _ v
      (noStart_tag _ _ _ _ _ h2 (by decide) (by decide) (by decide) (by decide))
  | codeInclude a =>
    exact fixTooltip_skip uni path _ v
      (noStart_tag _ _ _ _ _ h2 (by decide) (by decide) (by decide) (by decide))

/-- The fixer of the definitions on a well-formed tag: a definition gets its
shortcode form, another tag is passed. -/
theorem fixDefinition_tag (uni : Char → Bool) (path : Str) (t : Tag) (ht : t.wf = true)
    (v : Str) :
    (fixDefinition uni path (t.text 1 ++ v)).1 = t.text 2 ++ (fixDefinition uni path v).1 := by
  obtain ⟨h1, h2, h3⟩ := (Tag.wf_iff t).1 ht
  cases t with
  | tooltip a =>
    exact fixDefinition_skip uni path _ v
      (noStart_tag _ _ _ _ _ h2 (by decide) (by decide) (by decide) (by decide))
  | definition a =>
    have hm := matchHere_tag "\x7b% glossary_definition".toList a v h1 h3
    have h := replaceAllString_hit uni '\x7b' "% glossary_definition".toList _ _
      "\x7b\x7b< glossary_definition$1>\x7d\x7d".toList _ hm
    have e : Tag.text 1 (.definition a) ++ v
        = "\x7b% glossary_definition".toList ++ (a ++ ("%\x7d".toList ++ v)) := by
      rw [Tag.text, if_neg (by simp [Tag.fixer])]
      simp only [Tag.liquid, List.append_assoc]
    rw [e]
    exact h
  | codeInclude a =>
    exact fixDefinition_skip uni path _ v
      (noStart_tag _ _ _ _ _ h2 (by decide) (by decide) (by decide) (by decide))

/-- The fixer of the code includes on a well-formed tag: a code include gets its
shortcode form, another tag is passed. -/
theorem fixCodeInclude_tag (uni : Char → Bool) (path : Str) (t : Tag) (ht : t.wf = true)
    (v : Str) :
    (fixCodeInclude uni path (t.text 2 ++ v)).1
      = t.text 3 ++ (fixCodeInclude uni path v).1 := by
  obtain ⟨h1, h2, h3⟩ := (Tag.wf_iff t).1 ht
  cases t with
  | tooltip a =>
    exact fixCodeInclude_skip uni path _ v
      (noStart_tag _ _ _ _ _ h2 (by decide) (by decide) (by decide) (by decide))
  | definition a =>
    exact fixCodeInclude_skip uni path _ v
      (noStart_tag _ _ _ _ _ h2 (by decide) (by decide) (by decide) (by decide))
  | codeInclude a =>
    obtain ⟨w, hm⟩ := matchHere_codeInclude a v h1 h3
    have h := replaceAllString_hit uni '\x7b' "% include code".toList _ _
      "\x7b\x7b< code$1>\x7d\x7d".toList _ hm
    have e : Tag.text 2 (.codeInclude a) ++ v
        = "\x7b% include code.html".toList ++ (a ++ ("%\x7d".toList ++ v)) := by
      rw [Tag.text, if_neg (by simp [Tag.fixer])]
      simp only [Tag.liquid, List.append_assoc]
    rw [e]
    exact h

/-- The openers of the three patterns of the tags, against the two ends of a capture
in its Liquid form. -/
theorem opener_apart (w : Str)
    (hw : w ∈ ["\x7b% glossary_tooltip".toList, "\x7b% glossary_definition".toList,
      "\x7b% include code".toList]) :
    w ∈ tagWords ∧ "\x7b%".toList <+: w ∧ '\x7b' ∉ w.tail ∧
      apart w "\x7b% capture ".toList = true ∧ clash w.tail " %\x7d".toList = true ∧
      apart w " %\x7d".toList = true ∧ apart w "\x7b% endcapture %\x7d".toList = true := by
  simp only [List.mem_cons, List.mem_singleton, List.not_mem_nil, or_false] at hw
  rcases hw with rfl | rfl | rfl <;> decide

/-- One of the three fixers of the tags on a well-formed block: the fixer rewrites the
tags of its kind, in the block and in the body of a capture, and passes the rest. -/
theorem block_rewrite (R : Str → Str) (w : Str) (k : Nat) (hk : k < 3)
    (hw : w ∈ ["\x7b% glossary_tooltip".toList, "\x7b% glossary_definition".toList,
      "\x7b% include code".toList])
    (hskip : ∀ x u, NoStart w x u → R (x ++ u) = x ++ R u)
    (htag : ∀ t : Tag, t.wf = true → ∀ v, R (t.text k ++ v) = t.text (k + 1) ++ R v)
    (b : Block) (hb : b.wf = true) (v : Str) :
    R (b.text k ++ v) = b.text (k + 1) ++ R v := by
  obtain ⟨hw0, hw1, hw2, hw3, hw4, hw5, hw6⟩ := opener_apart w hw
  cases b with
  | tag t => exact htag t hb v
  | capture n body last =>
    simp only [Block.wf, Bool.and_eq_true, Bool.not_eq_true', List.all_eq_true] at hb
    obtain ⟨⟨⟨hn1, hn2⟩, hbody⟩, hlast⟩ := hb
    have hX : ∀ u, NoStart w ("\x7b% capture ".toList ++ (n ++ " %\x7d".toList)) u :=
      fun u => noStart_tag w _ n _ u hn1 hw1 hw3 hw4 hw5
    have hS := segsText_rewrite R w (Tag.text k) (Tag.text (k + 1)) hskip hw2 body
      (fun p hp => contains_of_isPlain _ _ (hbody p hp).1 hw0)
      (fun p _ u => tag_text_head k p.2 u)
      (fun p hp u => htag p.2 (hbody p hp).2 u)
      (last ++ ("\x7b% endcapture %\x7d".toList ++ v))
    have hL : NoStart w last ("\x7b% endcapture %\x7d".toList ++ v) :=
      noStart_of_next w last _ (contains_of_isPlain _ _ hlast hw0) (by
        intro c hc
        have : c = '\x7b' := by simpa using hc.symm
        subst this
        exact hw2)
    have hC : NoStart w "\x7b% endcapture %\x7d".toList v := noStart_of_apart _ _ _ hw6
    have e : Block.text k (.capture n body last) ++ v
        = ("\x7b% capture ".toList ++ (n ++ " %\x7d".toList)) ++
          (segsText (Tag.text k) body ++ (last ++ ("\x7b% endcapture %\x7d".toList ++ v))) := by
      rw [Block.text, if_neg (by omega)]
      simp only [List.append_assoc]
    rw [e, hskip _ _ (hX _), hS, hskip _ _ hL, hskip _ _ hC, Block.text, if_neg (by omega)]
    simp only [List.append_assoc]

/-- One of the three fixers of the tags on a well-formed document: the document with
the tags of the kind of the fixer in their shortcode form. -/
theorem doc_rewrite (R : Str → Str) (w : Str) (k : Nat) (hk : k < 3)
    (hw : w ∈ ["\x7b% glossary_tooltip".toList, "\x7b% glossary_definition".toList,
      "\x7b% include code".toList])
    (hskip : ∀ x u, NoStart w x u → R (x ++ u) = x ++ R u) (hnil : R [] = [])
    (htag : ∀ t : Tag, t.wf = true → ∀ v, R (t.text k ++ v) = t.text (k + 1) ++ R v)
    (d : Doc) (hd : d.wf = true) : R (d.text k) = d.text (k + 1) := by
  obtain ⟨hw0, _, hw2, _⟩ := opener_apart w hw
  simp only [Doc.wf, Bool.and_eq_true, List.all_eq_true] at hd
  obtain ⟨hblocks, hlast⟩ := hd
  have hS := segsText_rewrite R w (Block.text k) (Block.text (k + 1)) hskip hw2 d.blocks
    (fun p hp => contains_of_isPlain _ _ (hblocks p hp).1 hw0)
    (fun p _ u => block_text_head k p.2 u)
    (fun p hp u => block_rewrite R w k hk hw hskip htag p.2 (hblocks p hp).2 u) d.last
  have hL : R d.last = d.last := by
    have := hskip d.last [] (noStart_of_next w d.last [] (contains_of_isPlain _ _ hlast hw0)
      (by intro c hc; cases hc))
    simpa [hnil] using this
  unfold Doc.text
  rw [hS, hL]

/-- The fixer of the captures on a well-formed block after the three fixers of the
tags: a capture gets its shortcode form, a tag is passed. -/
theorem replaceCaptures_block (uni : Char → Bool) (path : Str) (b : Block)
    (hb : b.wf = true) (v : Str) :
    (replaceCaptures uni path (b.text 3 ++ v)).1
      = b.text 4 ++ (replaceCaptures uni path v).1 := by
  cases b with
  | tag t =>
    have h := replaceCaptures_skip uni path _ v
      (Tag.shortcode_noStart "\x7b% capture ".toList (by decide) t hb v)
    simp only [Block.text, Tag.text_of_three_le 3 (le_refl _),
      Tag.text_of_three_le 4 (by omega)]
    exact h
  | capture n body last =>
    simp only [Block.wf, Bool.and_eq_true, Bool.not_eq_true', List.all_eq_true] at hb
    obtain ⟨⟨⟨hn1, hn2⟩, hbody⟩, hlast⟩ := hb
    have hbody4 : segsText (Tag.text 4) body = segsText (Tag.text 3) body := by
      have : Tag.text 4 = Tag.text 3 := funext (fun t => by
        rw [Tag.text_of_three_le 4 (by omega), Tag.text_of_three_le 3 (le_refl _)])
      rw [this]
    have hB : NoStart "\x7b% endcapture %\x7d".toList (segsText (Tag.text 3) body ++ last)
        ("\x7b% endcapture %\x7d".toList ++ v) := by
      refine noStart_append _ _ last _ ?_ ?_
      · refine segsText_noStart _ (Tag.text 3) (by decide) body
          (fun p hp => contains_of_isPlain _ _ (hbody p hp).1 (by decide))
          (fun p _ u => tag_text_head 3 p.2 u) ?_ _
        intro p hp u
        rw [Tag.text_of_three_le 3 (le_refl _)]
        exact Tag.shortcode_noStart _ (by decide) p.2 (hbody p hp).2 u
      · refine noStart_of_next _ last _ (contains_of_isPlain _ _ hlast (by decide)) ?_
        intro c hc
        have : c = '\x7b' := by simpa using hc.symm
        subst this
        decide
    obtain ⟨w, hm⟩ := matchHere_capture n (segsText (Tag.text 3) body ++ last) v hn2 hB
    have h := replaceAllString_hit uni '\x7b' "% capture ".toList _ _
      "\x7b\x7b% capture $1 %\x7d\x7d$2\x7b\x7b% /capture %\x7d\x7d".toList _ hm
    rw [expand_capture] at h
    have h2 : (replaceCaptures uni path ("\x7b% capture ".toList ++ (n ++ (" %\x7d".toList ++
          ((segsText (Tag.text 3) body ++ last) ++ ("\x7b% endcapture %\x7d".toList ++ v)))))).1
        = "\x7b\x7b% capture ".toList ++ (n ++ (" %\x7d\x7d".toList ++
            ((segsText (Tag.text 3) body ++ last) ++ "\x7b\x7b% /capture %\x7d\x7d".toList))) ++
          (replaceCaptures uni path v).1 := h
    have e : Block.text 3 (.capture n body last) ++ v
        = "\x7b% capture ".toList ++ (n ++ (" %\x7d".toList ++
          ((segsText (Tag.text 3) body ++ last) ++ ("\x7b% endcapture %\x7d".toList ++ v)))) := by
      rw [Block.text, if_neg (by omega)]
      simp only [List.append_assoc]
    rw [e, h2, Block.text, if_pos (le_refl _), hbody4]
    simp only [List.append_assoc]

/-- The fixer of the captures on a well-formed document after the three fixers of the
tags: the document in its shortcode form. -/
theorem replaceCaptures_doc (uni : Char → Bool) (path : Str) (d : Doc) (hd : d.wf = true) :
    (replaceCaptures uni path (d.text 3)).1 = d.text 4 := by
  simp only [Doc.wf, Bool.and_eq_true, List.all_eq_true] at hd
  obtain ⟨hblocks, hlast⟩ := hd
  have hS := segsText_rewrite (fun s => (replaceCaptures uni path s).1)
    "\x7b% capture ".toList (Block.text 3) (Block.text 4) (replaceCaptures_skip uni path)
    (by decide) d.blocks
    (fun p hp => contains_of_isPlain _ _ (hblocks p hp).1 (by decide))
    (fun p _ u => block_text_head 3 p.2 u)
    (fun p hp u => replaceCaptures_block uni path p.2 (hblocks p hp).2 u) d.last
  have hL : (replaceCaptures uni path d.last).1 = d.last := by
    have := replaceCaptures_skip uni path d.last [] (noStart_of_next _ d.last []
      (contains_of_isPlain _ _ hlast (by decide)) (by intro c hc; cases hc))
    have hnil : (replaceCaptures uni path []).1 = [] := rfl
    simpa [hnil] using this
  unfold Doc.text
  exact hS.trans (by rw [hL])

/-- The openers of the three patterns of the tags and the end of a capture, against
the two ends of a capture in its shortcode form. -/
theorem word_apart (w : Str)
    (hw : w ∈ ["\x7b% glossary_tooltip".toList, "\x7b% glossary_definition".toList,
      "\x7b% include code".toList, "\x7b% endcapture %\x7d".toList]) :
    w ∈ tagWords ∧ "\x7b%".toList <+: w ∧ '\x7b' ∉ w.tail ∧
      apart w "\x7b\x7b% capture ".toList = true ∧ clash w.tail " %\x7d\x7d".toList = true ∧
      apart w " %\x7d\x7d".toList = true ∧ apart w "\x7b\x7b% /capture %\x7d\x7d".toList = true := by
  simp only [List.mem_cons, List.mem_singleton, List.not_mem_nil, or_false] at hw
  rcases hw with rfl | rfl | rfl | rfl <;> decide

/-- No opener of the three patterns of the tags and no end of a capture starts in the
shortcode form of a well-formed block. -/
theorem Block.shortcodes_noStart (w : Str)
    (hw : w ∈ ["\x7b% glossary_tooltip".toList, "\x7b% glossary_definition".toList,
      "\x7b% include code".toList, "\x7b% endcapture %\x7d".toList])
    (b : Block) (hb : b.wf = true) (v : Str) : NoStart w (b.text 4) v := by
  obtain ⟨hw0, hw1, hw2, hw3, hw4, hw5, hw6⟩ := word_apart w hw
  cases b with
  | tag t =>
    simp only [Block.text, Tag.text_of_three_le 4 (by omega)]
    exact Tag.shortcode_noStart w hw0 t hb v
  | capture n body last =>
    simp only [Block.wf, Bool.and_eq_true, Bool.not_eq_true', List.all_eq_true] at hb
    obtain ⟨⟨⟨hn1, hn2⟩, hbody⟩, hlast⟩ := hb
    rw [Block.text, if_pos (le_refl _)]
    refine noStart_append w _ _ v (noStart_tag w _ n _ _ hn1 hw1 hw3 hw4 hw5) ?_
    refine noStart_append w _ _ v ?_ (noStart_of_apart _ _ _ hw6)
    refine noStart_append w _ last _ ?_ ?_
    · refine segsText_noStart w (Tag.text 4) hw2 body
        (fun p hp => contains_of_isPlain _ _ (hbody p hp).1 hw0)
        (fun p _ u => tag_text_head 4 p.2 u) ?_ _
      intro p hp u
      rw [Tag.text_of_three_le 4 (by omega)]
      exact Tag.shortcode_noStart w hw0 p.2 (hbody p hp).2 u
    · refine noStart_of_next w last _ (contains_of_isPlain _ _ hlast hw0) ?_
      intro c hc
      have : c = '\x7b' := by simpa using hc.symm
      subst this
      exact hw2

/-- No opener of the three patterns of the tags and no end of a capture occurs in
the shortcode form of a well-formed document. -/
theorem Doc.shortcodes_free (w : Str)
    (hw : w ∈ ["\x7b% glossary_tooltip".toList, "\x7b% glossary_definition".toList,
      "\x7b% include code".toList, "\x7b% endcapture %\x7d".toList])
    (d : Doc) (hd : d.wf = true) : contains (d.text 4) w = false := by
  obtain ⟨hw0, _, hw2, _⟩ := word_apart w hw
  simp only [Doc.wf, Bool.and_eq_true, List.all_eq_true] at hd
  obtain ⟨hblocks, hlast⟩ := hd
  unfold Doc.text
  refine contains_append_false w _ d.last ?_ (contains_of_isPlain _ _ hlast hw0)
  exact segsText_noStart w (Block.text 4) hw2 d.blocks
    (fun p hp => contains_of_isPlain _ _ (hblocks p hp).1 hw0)
    (fun p _ u => block_text_head 4 p.2 u)
    (fun p hp u => Block.shortcodes_noStart w hw p.2 (hblocks p hp).2 u) d.last

/-- The translation leaves the shortcode form of a well-formed document as it is: no
pattern of the four fixers has a match in it. -/
theorem translateTags_shortcodes (uni : Char → Bool) (path : Str) (d : Doc)
    (hd : d.wf = true) : translateTags uni path (d.text 4) = d.text 4 := by
  have h1 : (fixTooltip uni path (d.text 4)).1 = d.text 4 :=
    replaceAllString_lit_id uni _ _ _ _ _ (List.infix_refl _)
      (Doc.shortcodes_free "\x7b% glossary_tooltip".toList (by simp) d hd)
  have h2 : (fixDefinition uni path (d.text 4)).1 = d.text 4 :=
    replaceAllString_lit_id uni _ _ _ _ _ (List.infix_refl _)
      (Doc.shortcodes_free "\x7b% glossary_definition".toList (by simp) d hd)
  have h3 : (fixCodeInclude uni path (d.text 4)).1 = d.text 4 :=
    replaceAllString_lit_id uni _ _ _ _ _ (List.infix_refl _)
      (Doc.shortcodes_free "\x7b% include code".toList (by simp) d hd)
  have h4 : (replaceCaptures uni path (d.text 4)).1 = d.text 4 :=
    replaceAllString_of_find_none uni captureRe _ _
      (find_none_of_last_lit
        [plain (.lit "\x7b% capture ".toList), group (.lazyStar dotAll),
          plain (.lit " %\x7d".toList), group (.lazyStar dotAll)]
        "\x7b% endcapture %\x7d".toList _
        (Doc.shortcodes_free "\x7b% endcapture %\x7d".toList (by simp) d hd))
  rw [translateTags_eq, h1, h2, h3, h4]

/-- C8, amended: for every well-formed document, the translation of its source text is
the document with every tag and capture in its shortcode form, and translating that
text again changes nothing. A well-formed document is plain text between complete
tags and captures: the plain text has none of the openers of the four patterns and
no `{% endcapture %}`; the argument of a tooltip, definition or code-include tag is
on one line and has neither `{%` nor `%}`; the name of a capture has neither `{%`
nor ` %}`, and its body is plain text between such tags. -/
theorem translateTags_idempotent (uni : Char → Bool) (path : Str) (d : Doc)
    (h : d.wf = true) :
    translateTags uni path d.liquid = d.shortcodes ∧
      translateTags uni path (translateTags uni path d.liquid)
        = translateTags uni path d.liquid := by
  have h1 : (fixTooltip uni path (d.text 0)).1 = d.text 1 :=
    doc_rewrite (fun s => (fixTooltip uni path s).1) "\x7b% glossary_tooltip".toList 0
      (by omega) (by simp) (fixTooltip_skip uni path) rfl (fixTooltip_tag uni path) d h
  have h2 : (fixDefinition uni path (d.text 1)).1 = d.text 2 :=
    doc_rewrite (fun s => (fixDefinition uni path s).1) "\x7b% glossary_definition".toList 1
      (by omega) (by simp) (fixDefinition_skip uni path) rfl (fixDefinition_tag uni path) d h
  have h3 : (fixCodeInclude uni path (d.text 2)).1 = d.text 3 :=
    doc_rewrite (fun s => (fixCodeInclude uni path s).1) "\x7b% include code".toList 2
      (by omega) (by simp) (fixCodeInclude_skip uni path) rfl (fixCodeInclude_tag uni path) d h
  have h4 := replaceCaptures_doc uni path d h
  have ht : translateTags uni path d.liquid = d.shortcodes := by
    rw [translateTags_eq, Doc.liquid, h1, h2, h3, h4, Doc.shortcodes]
  refine ⟨ht, ?_⟩
  rw [ht]
  exact translateTags_shortcodes uni path d h

/-- C8, amended, at a document with a tooltip, a code include, a Liquid tag that the
translation does not rewrite, and a capture that holds a definition. -/
theorem translateTags_idempotent_witness :
    sampleDoc.liquid
        = ("See \x7b% glossary_tooltip term_id=\"pod\" %\x7d and " ++
            "\x7b% include code.html file=\"a.yaml\" %\x7d\n\x7b% assign x = 1 %\x7d\n" ++
            "\x7b% capture overview %\x7dA \x7b% glossary_definition term_id=\"node\" %\x7d " ++
            "here.\n\x7b% endcapture %\x7d\nend\n").toList ∧
      sampleDoc.shortcodes
        = ("See \x7b\x7b< glossary_tooltip term_id=\"pod\" >\x7d\x7d and " ++
            "\x7b\x7b< code file=\"a.yaml\" >\x7d\x7d\n\x7b% assign x = 1 %\x7d\n" ++
            "\x7b\x7b% capture overview %\x7d\x7dA " ++
            "\x7b\x7b< glossary_definition term_id=\"node\" >\x7d\x7d " ++
            "here.\n\x7b\x7b% /capture %\x7d\x7d\nend\n").toList ∧
      translateTags (fun _ => false) "a.md".toList sampleDoc.liquid = sampleDoc.shortcodes ∧
      translateTags (fun _ => false) "a.md".toList
          (translateTags (fun _ => false) "a.md".toList sampleDoc.liquid)
        = translateTags (fun _ => false) "a.md".toList sampleDoc.liquid :=
  ⟨rfl, rfl,
    translateTags_idempotent (fun _ => false) "a.md".toList sampleDoc (by decide)⟩

/-- `ReplaceAllString` with a pattern that starts with a non-empty literal, on a text
with one match: the text before the match, the replacement, the text after it. -/
theorem replaceAllString_once (uni : Char → Bool) (c : Char) (l : Str) (r : Regex)
    (s template : Str) (f : Found) (hf : find (plain (.lit (c :: l)) :: r) s = some f)
    (hrest : find (plain (.lit (c :: l)) :: r) f.m.rest = none) :
    replaceAllString uni (plain (.lit (c :: l)) :: r) s template
      = f.pre ++ (expand uni f.m template ++ f.m.rest) := by
  rw [replaceAllString_of_find_some uni _ (matchHere_lit_whole c l r) _ _ _ hf,
    replaceAllString_of_find_none uni _ _ _ hrest]

/-- C8, the claim refuted: a tooltip tag written inside a tooltip tag. The first
translation rewrites the outer tag up to the first `%}` and leaves a text in
which the pattern matches again, so the second translation changes the text. -/
theorem translateTags_not_idempotent :
    (∀ uni : Char → Bool,
        translateTags uni "a.md".toList
            "\x7b% glossary_tooltip\x7b% glossary_tooltip x%\x7d%\x7d".toList
          = "\x7b\x7b< glossary_tooltip\x7b% glossary_tooltip x>\x7d\x7d%\x7d".toList) ∧
      (∀ uni : Char → Bool,
        translateTags uni "a.md".toList
            (translateTags uni "a.md".toList
              "\x7b% glossary_tooltip\x7b% glossary_tooltip x%\x7d%\x7d".toList)
          = "\x7b\x7b< glossary_tooltip\x7b\x7b< glossary_tooltip x>\x7d\x7d>\x7d\x7d".toList) ∧
      (∀ uni : Char → Bool,
        translateTags uni "a.md".toList
            (translateTags uni "a.md".toList
              "\x7b% glossary_tooltip\x7b% glossary_tooltip x%\x7d%\x7d".toList)
          ≠ translateTags uni "a.md".toList
              "\x7b% glossary_tooltip\x7b% glossary_tooltip x%\x7d%\x7d".toList) := by
  have step : ∀ (uni : Char → Bool) (s x : Str) (f : Found),
      find tooltipRe s = some f → find tooltipRe f.m.rest = none →
      f.pre ++ (expand uni f.m "\x7b\x7b< glossary_tooltip$1>\x7d\x7d".toList ++ f.m.rest) = x →
      contains x "\x7b% glossary_definition".toList = false →
      contains x "\x7b% include code".toList = false →
      contains x "\x7b% capture ".toList = false →
      translateTags uni "a.md".toList s = x := by
    intro uni s x f hf hrest hx h2 h3 h4
    have e1 : (fixTooltip uni "a.md".toList s).1 = x :=
      (replaceAllString_once uni '\x7b' "% glossary_tooltip".toList _ s _ f hf hrest).trans hx
    have e2 : (fixDefinition uni "a.md".toList x).1 = x :=
      replaceAllString_lit_id uni _ _ _ _ _ (List.infix_refl _) h2
    have e3 : (fixCodeInclude uni "a.md".toList x).1 = x :=
      replaceAllString_lit_id uni _ _ _ _ _ (List.infix_refl _) h3
    have e4 : (replaceCaptures uni "a.md".toList x).1 = x :=
      replaceAllString_lit_id uni _ _ _ _ _ (List.infix_refl _) h4
    rw [translateTags_eq, e1, e2, e3, e4]
  have h1 : ∀ uni : Char → Bool,
      translateTags uni "a.md".toList
          "\x7b% glossary_tooltip\x7b% glossary_tooltip x%\x7d%\x7d".toList
        = "\x7b\x7b< glossary_tooltip\x7b% glossary_tooltip x>\x7d\x7d%\x7d".toList :=
    fun uni => step uni _ _
      ⟨[], ⟨"\x7b% glossary_tooltip\x7b% glossary_tooltip x%\x7d".toList,
        ["\x7b% glossary_tooltip x".toList], "%\x7d".toList⟩⟩
      (by decide) (by decide) rfl (by decide) (by decide) (by decide)
  have h2 : ∀ uni : Char → Bool,
      translateTags uni "a.md".toList
          "\x7b\x7b< glossary_tooltip\x7b% glossary_tooltip x>\x7d\x7d%\x7d".toList
        = "\x7b\x7b< glossary_tooltip\x7b\x7b< glossary_tooltip x>\x7d\x7d>\x7d\x7d".toList :=
    fun uni => step uni _ _
      ⟨"\x7b\x7b< glossary_tooltip".toList,
        ⟨"\x7b% glossary_tooltip x>\x7d\x7d%\x7d".toList, [" x>\x7d\x7d".toList], []⟩⟩
      (by decide) (by decide) rfl (by decide) (by decide) (by decide)
  refine ⟨h1, fun uni => ?_, fun uni => ?_⟩
  · rw [h1, h2]
  · rw [h1, h2]
    decide

/-! ## Callouts: the lines of the input -/

/-- The text of two sequences of parts, one after the other. -/
theorem render_append (a b : List Part) : render (a ++ b) = render a ++ render b := by
  simp [render]

/-- The input lines of two sequences of parts, one after the other. -/
theorem contents_append (a b : List Part) : contents (a ++ b) = contents a ++ contents b := by
  simp [contents]

/-- The paragraph counter is 0 after a line exactly when the line is a paragraph boundary. -/
theorem nextCounter_eq_zero_iff (n : Nat) (line : Str) :
    nextCounter n line = 0 ↔ isBoundary line = true := by
  unfold nextCounter isBoundary
  by_cases h : trimSpace line = [] ∨ trimSpace line = "---".toList
  · simp only [h, if_true, true_iff]; simpa using h
  · simp only [h, if_false]
    constructor
    · intro h0; omega
    · intro hb; exact absurd (by simpa using hb) h

/-- The lines of the scanner are the lines of the text when no line fills the buffer. -/
theorem scanLinesAux_eq_map (s acc : Str)
    (h : ∀ l ∈ rawLinesAux acc s, utf8Len l < maxScanTokenSize) :
    scanLinesAux acc s = (rawLinesAux acc s).map dropCR := by
  induction s generalizing acc with
  | nil =>
    by_cases hacc : acc = []
    · simp [scanLinesAux, rawLinesAux, hacc]
    · have := h acc (by simp [rawLinesAux, hacc])
      simp [scanLinesAux, rawLinesAux, hacc, Nat.not_le.2 this]
  | cons c s ih =>
    by_cases hc : c = '\n'
    · have h1 := h acc (by simp [rawLinesAux, hc])
      have h2 := ih [] (fun l hl => h l (by simp [rawLinesAux, hc, hl]))
      simp [scanLinesAux, rawLinesAux, hc, Nat.not_le.2 h1, h2]
    · have h2 := ih (acc ++ [c]) (fun l hl => h l (by simpa [rawLinesAux, hc] using hl))
      simpa [scanLinesAux, rawLinesAux, hc] using h2

/-- The lines of the scanner are the lines of the text when no line fills the buffer. -/
theorem scanLines_eq_textLines (s : Str)
    (h : ∀ l ∈ rawLines s, utf8Len l < maxScanTokenSize) : scanLines s = textLines s :=
  scanLinesAux_eq_map s [] h

/-- One turn of the loop on the texts of the buffers is one turn on their parts. -/
theorem scanStep_toScan (st : PartScan) (line : Str) :
    scanStep st.toScan line = (partStep st line).map PartScan.toScan := by
  by_cases hcall : isCallout line = true
  · cases hf : find calloutRe line with
    | none => simp [scanStep, partStep, hcall, hf]
    | some f =>
      by_cases hstart : nextCounter st.pcounter line = 1
      · simp [scanStep, partStep, hcall, hf, hstart, PartScan.toScan, render_append, render,
          Part.render]
      · simp [scanStep, partStep, hcall, hf, hstart, PartScan.toScan, render_append, render,
          Part.render]
  · have hcall2 : isCallout line = false := by simpa using hcall
    by_cases hzero : nextCounter st.pcounter line = 0
    · cases ho : st.isOpen <;>
        simp [scanStep, partStep, hcall2, hzero, ho, PartScan.toScan, render_append, render,
          Part.render]
    · simp [scanStep, partStep, hcall2, hzero, PartScan.toScan, render_append, render,
        Part.render]

/-- The loop on the texts of the buffers is the loop on their parts. -/
theorem scanLoop_toScan (ls : List Str) (st : PartScan) :
    scanLoop st.toScan ls = (partLoop st ls).map PartScan.toScan := by
  induction ls generalizing st with
  | nil => rfl
  | cons l ls ih =>
    simp only [scanLoop, partLoop, scanStep_toScan]
    cases partStep st l with
    | none => rfl
    | some st1 => exact ih st1

/-- The text that the loop returns is the text of the parts that it writes. -/
theorem linesOutput_eq_render (ls : List Str) : linesOutput ls = (lineParts ls).map render := by
  have h := scanLoop_toScan ls PartScan.init
  have h0 : PartScan.init.toScan = Scan.init := rfl
  rw [h0] at h
  simp only [linesOutput, lineParts, h, Option.map_map]
  cases partLoop PartScan.init ls with
  | none => rfl
  | some st => simp [PartScan.toScan, render_append]

/-- One turn of the loop on a line that does not make it panic: the parts written
carry the line when it has no callout mark, and no line otherwise; a line that
ends an open span is a paragraph boundary. -/
theorem partStep_contents (st : PartScan) (line : Str)
    (hm : isCallout line = true → (find calloutRe line).isSome = true)
    (hb : bounded (st.all ++ st.current) = true) :
    ∃ st1, partStep st line = some st1 ∧ bounded (st1.all ++ st1.current) = true ∧
      contents (st1.all ++ st1.current)
        = contents (st.all ++ st.current) ++ (if isCallout line then [] else [line]) := by
  have hb2 := hb
  simp only [bounded, List.all_append, Bool.and_eq_true] at hb2
  obtain ⟨hba, hbc⟩ := hb2
  by_cases hcall : isCallout line = true
  · obtain ⟨f, hf⟩ := Option.isSome_iff_exists.1 (hm hcall)
    by_cases hstart : nextCounter st.pcounter line = 1
    · simp only [partStep, hcall, if_true, hf, hstart, not_true_eq_false, if_false]
      refine ⟨_, rfl, ?_, ?_⟩
      · simp [bounded, Part.bounded, hba, hbc]
      · simp [contents, Part.content?]
    · simp only [partStep, hcall, if_true, hf, hstart, not_false_eq_true]
      refine ⟨_, rfl, ?_, ?_⟩
      · simp [bounded, Part.bounded, hba, hbc]
      · simp [contents, Part.content?]
  · have hcall2 : isCallout line = false := by simpa using hcall
    by_cases hzero : nextCounter st.pcounter line = 0
    · have hbd := (nextCounter_eq_zero_iff _ _).1 hzero
      simp only [partStep, hcall2, hzero]
      refine ⟨_, rfl, ?_, ?_⟩
      · cases ho : st.isOpen <;> simp [bounded, Part.bounded, hba, hbc, hbd]
      · cases ho : st.isOpen <;> simp [contents, Part.content?]
    · simp only [partStep, hcall2, hzero]
      refine ⟨_, rfl, ?_, ?_⟩
      · simp [bounded, Part.bounded, hba, hbc]
      · simp [contents, Part.content?]

/-- The loop on lines that do not make it panic: the parts written carry the lines
without callout mark, in their order. -/
theorem partLoop_contents (ls : List Str) (st : PartScan)
    (hm : ∀ l ∈ ls, isCallout l = true → (find calloutRe l).isSome = true)
    (hb : bounded (st.all ++ st.current) = true) :
    ∃ st1, partLoop st ls = some st1 ∧ bounded (st1.all ++ st1.current) = true ∧
      contents (st1.all ++ st1.current)
        = contents (st.all ++ st.current) ++ ls.filter (fun l => !isCallout l) := by
  induction ls generalizing st with
  | nil => exact ⟨st, rfl, hb, by simp⟩
  | cons l ls ih =>
    obtain ⟨st1, hst1, hb1, hc1⟩ := partStep_contents st l (hm l (by simp)) hb
    obtain ⟨st2, hst2, hb2, hc2⟩ := ih st1 (fun x hx => hm x (by simp [hx])) hb1
    refine ⟨st2, by simp only [partLoop, hst1, hst2], hb2, ?_⟩
    rw [hc2, hc1]
    by_cases hl : isCallout l = true
    · simp [hl]
    · simp [hl]

/-- C9, amended: for a path without `style-guide` and a text in which no line has
64 KiB or more and every line that carries a callout mark matches `calloutRe`,
`calloutsToShortCodes` returns a text. When the text has no `{:` it is returned as
it is. Otherwise the output is the text of the parts that the loop writes, markers
and input lines: the lines are the lines of the input that carry no callout mark,
in their order and with their content; each is followed by a line feed, except a
line that ends an open span, which is a blank line or a `---` line and is followed
at once by the closing marker of the span. -/
theorem calloutsToShortCodes_keeps_lines (path s : Str)
    (hp : contains path "style-guide".toList = false)
    (hlen : ∀ l ∈ rawLines s, utf8Len l < maxScanTokenSize)
    (hm : ∀ l ∈ textLines s, isCallout l = true → (find calloutRe l).isSome = true) :
    (contains s "\x7b:".toList = false → calloutsToShortCodes path s = some s) ∧
      (contains s "\x7b:".toList = true →
        ∃ parts, lineParts (textLines s) = some parts ∧
          calloutsToShortCodes path s = some (render parts) ∧
          contents parts = (textLines s).filter (fun l => !isCallout l) ∧
          bounded parts = true) := by
  constructor
  · intro hs
    simp only [calloutsToShortCodes, hp, hs]
    rfl
  · intro hs
    obtain ⟨st, hst, hb, hc⟩ := partLoop_contents (textLines s) PartScan.init hm rfl
    have hparts : lineParts (textLines s) = some (st.all ++ st.current) := by
      simp [lineParts, hst]
    have hout := linesOutput_eq_render (textLines s)
    rw [hparts] at hout
    refine ⟨st.all ++ st.current, hparts, ?_, ?_, hb⟩
    · have hl : calloutsToShortCodes path s = linesOutput (scanLines s) := by
        simp only [calloutsToShortCodes, hp, hs, linesOutput]
        cases scanLoop Scan.init (scanLines s) <;> rfl
      rw [hl, scanLines_eq_textLines s hlen, hout]
      rfl
    · simpa [contents, PartScan.init] using hc

/-- C9, amended, at a note that a blank line ends: the lines `foo`, the blank line and
`bar` are the lines of the parts of the output. -/
theorem calloutsToShortCodes_keeps_lines_witness :
    ∃ parts, lineParts (textLines "\x7b: .note\x7d\nfoo\n\nbar\n".toList) = some parts ∧
      calloutsToShortCodes "a.md".toList "\x7b: .note\x7d\nfoo\n\nbar\n".toList
        = some (render parts) ∧
      contents parts
        = (textLines "\x7b: .note\x7d\nfoo\n\nbar\n".toList).filter (fun l => !isCallout l) ∧
      bounded parts = true :=
  (calloutsToShortCodes_keeps_lines "a.md".toList "\x7b: .note\x7d\nfoo\n\nbar\n".toList
    (by decide) (by decide) (by decide)).2 (by decide)

/-- C9, the claim refuted: a note opened on the first line of a paragraph and ended by
a blank line. The blank line of the input is not in the output: the lines of the
output without the two markers are `foo` and `bar`, the lines of the input without
callout mark are `foo`, the blank line and `bar`. -/
theorem calloutsToShortCodes_drops_blank_line :
    contains "a.md".toList "style-guide".toList = false ∧
      calloutsToShortCodes "a.md".toList "\x7b: .note\x7d\nfoo\n\nbar\n".toList
        = some "\x7b\x7b< note >\x7d\x7d\nfoo\n\x7b\x7b< /note >\x7d\x7d\nbar\n".toList ∧
      (textLines "\x7b\x7b< note >\x7d\x7d\nfoo\n\x7b\x7b< /note >\x7d\x7d\nbar\n".toList).filter
          (fun l => !isMarkerLine l)
        = ["foo".toList, "bar".toList] ∧
      (textLines "\x7b: .note\x7d\nfoo\n\nbar\n".toList).filter (fun l => !isCallout l)
        = ["foo".toList, [], "bar".toList] := by
  decide

/-! ## Callouts: the single-paragraph form -/

/-- A line without its carriage return is a leading part of the line. -/
theorem dropCR_isPrefixOf_self (l : Str) : dropCR l <+: l := by
  unfold dropCR
  split
  · exact List.dropLast_prefix l
  · exact List.prefix_refl l

/-- Every line of the scanner occurs in the text. -/
theorem scanLinesAux_mem_sub (acc s l : Str) (h : l ∈ scanLinesAux acc s) :
    l <:+: acc ++ s := by
  induction s generalizing acc with
  | nil =>
    simp only [scanLinesAux] at h
    split at h
    · simp at h
    · split at h
      · simp at h
      · simp only [List.mem_singleton] at h
        rw [h, List.append_nil]
        exact (dropCR_isPrefixOf_self acc).isInfix
  | cons c s ih =>
    simp only [scanLinesAux] at h
    split at h
    · split at h
      · simp at h
      · rcases List.mem_cons.1 h with h | h
        · rw [h]
          exact (dropCR_isPrefixOf_self acc).isInfix.trans (List.infix_append' [] acc (c :: s))
        · have := ih [] h
          rw [List.nil_append] at this
          exact this.trans ⟨acc ++ [c], [], by simp⟩
    · have := ih (acc ++ [c]) h
      simpa using this

/-- What occurs in a line of the scanner occurs in the text. -/
theorem contains_of_line (s l sub : Str) (hl : l ∈ scanLines s) (h : contains l sub = true) :
    contains s sub = true := by
  rw [contains_iff] at h ⊢
  have := scanLinesAux_mem_sub [] s l hl
  rw [List.nil_append] at this
  exact h.trans this

/-- The loop on lines of a paragraph without callout mark, outside a span: the lines
go to the buffer `current` and are counted. -/
theorem scanLoop_plain_lines (ls rest : List Str) (st : Scan) (hopen : st.isOpen = false)
    (hls : ∀ l ∈ ls, isBoundary l = false ∧ contains l "\x7b:".toList = false) :
    scanLoop st (ls ++ rest)
      = scanLoop { st with current := st.current ++ unlines ls,
                           pcounter := st.pcounter + ls.length } rest := by
  induction ls generalizing st with
  | nil => simp [unlines]
  | cons l ls ih =>
    obtain ⟨hb, hc⟩ := hls l (by simp)
    have hcall : isCallout l = false := by simp only [isCallout, hc, Bool.false_and]
    have hcount : nextCounter st.pcounter l = st.pcounter + 1 := by
      unfold nextCounter
      unfold isBoundary at hb
      have : ¬ (trimSpace l = [] ∨ trimSpace l = "---".toList) := by
        simpa using hb
      simp only [this, if_false]
    simp only [List.cons_append, scanLoop, scanStep, hcall, hcount, hopen]
    simp only [Bool.false_eq_true, if_false, Bool.not_false, Bool.true_or, if_true,
      Nat.add_one_ne_zero]
    show scanLoop _ (ls ++ rest) = _
    rw [ih _ rfl (fun x hx => hls x (by simp [hx]))]
    simp [unlines, Nat.add_assoc, Nat.add_comm 1]

/-- The turn of the loop on an annotation line that is not the first line of its
paragraph: the opening marker, the buffered paragraph and the closing marker go to
the output. -/
theorem scanStep_closes_paragraph (st : Scan) (kind : Str) (hk : IsKind kind)
    (hpos : st.pcounter ≠ 0) :
    scanStep st (annotationLine kind)
      = some { all := st.all ++ openMarker [] kind ++ st.current ++ closeMarker [] kind
               current := []
               pcounter := st.pcounter + 1
               indent := []
               shortcode := kind
               isOpen := st.isOpen } := by
  have hfacts : isCallout (annotationLine kind) = true ∧
      isBoundary (annotationLine kind) = false ∧
      (find calloutRe (annotationLine kind)).map (fun f => (f.m.sub 1, f.m.sub 2))
        = some ([], kind) := by
    rcases hk with rfl | rfl | rfl <;> decide
  obtain ⟨hcall, hb, hfind⟩ := hfacts
  have hcount : nextCounter st.pcounter (annotationLine kind) = st.pcounter + 1 := by
    unfold nextCounter
    unfold isBoundary at hb
    have : ¬ (trimSpace (annotationLine kind) = [] ∨
        trimSpace (annotationLine kind) = "---".toList) := by
      simpa using hb
    simp only [this, if_false]
  cases hf : find calloutRe (annotationLine kind) with
  | none => simp [hf] at hfind
  | some f =>
    simp only [hf, Option.map_some', Option.some.injEq, Prod.mk.injEq] at hfind
    have hstart : ¬ st.pcounter + 1 = 1 := by omega
    simp only [scanStep, hcall, if_true, hcount, hf, hfind.1, hfind.2, hstart,
      not_false_eq_true]

/-- C10, amended: a text whose lines are one paragraph of at least one line, none of
them blank, a `---` line or a line with `{:`, and then the annotation line
`{: .K}` of a callout kind `K`. The output of `calloutsToShortCodes` is the line
of the opening marker, the lines of the paragraph in order, and the line of the
closing marker. -/
theorem calloutsToShortCodes_single_paragraph (path s : Str) (ls : List Str) (kind : Str)
    (hp : contains path "style-guide".toList = false) (hk : IsKind kind) (hne : ls ≠ [])
    (hls : ∀ l ∈ ls, isBoundary l = false ∧ contains l "\x7b:".toList = false)
    (hs : scanLines s = ls ++ [annotationLine kind]) :
    calloutsToShortCodes path s
      = some (openMarker [] kind ++ unlines ls ++ closeMarker [] kind) := by
  have hmark : contains (annotationLine kind) "\x7b:".toList = true := by
    rcases hk with rfl | rfl | rfl <;> decide
  have hcont : contains s "\x7b:".toList = true :=
    contains_of_line s (annotationLine kind) _ (by rw [hs]; simp) hmark
  have hlen : ¬ (0 + ls.length = 0) := by
    cases ls with
    | nil => exact absurd rfl hne
    | cons l ls => simp
  unfold calloutsToShortCodes
  simp only [hp, hcont, hs, Bool.false_eq_true, if_false, Bool.not_true]
  rw [scanLoop_plain_lines ls [annotationLine kind] Scan.init rfl hls]
  simp only [scanLoop]
  rw [scanStep_closes_paragraph _ kind hk hlen]
  simp [Scan.init]

/-- C10, amended, at a paragraph of two lines with a note. -/
theorem calloutsToShortCodes_single_paragraph_witness :
    calloutsToShortCodes "a.md".toList "Take care.\nReally.\n\x7b: .note\x7d\n".toList
      = some (openMarker [] "note".toList
          ++ unlines ["Take care.".toList, "Really.".toList]
          ++ closeMarker [] "note".toList) :=
  calloutsToShortCodes_single_paragraph "a.md".toList
    "Take care.\nReally.\n\x7b: .note\x7d\n".toList ["Take care.".toList, "Really.".toList]
    "note".toList (by decide) (by decide) (by decide) (by decide) (by decide)

/-- C10, the claim refuted: a paragraph of one line that is a `---` line, which is not
blank and has no `{:`, and then the annotation line of a note. The `---` line sets
the paragraph counter to 0, so the annotation opens a span: the output has the
`---` line first, then the opening marker, and no closing marker. And on a path
with `style-guide` a text of the single-paragraph form is returned as it is. -/
theorem calloutsToShortCodes_after_delimiter_line :
    trimSpace "---".toList ≠ [] ∧ contains "---".toList "\x7b:".toList = false ∧
      scanLines "---\n\x7b: .note\x7d\n".toList = ["---".toList] ++ [annotationLine "note".toList] ∧
      calloutsToShortCodes "a.md".toList "---\n\x7b: .note\x7d\n".toList
        = some "---\n\x7b\x7b< note >\x7d\x7d\n".toList ∧
      calloutsToShortCodes "a.md".toList "---\n\x7b: .note\x7d\n".toList
        ≠ some (openMarker [] "note".toList ++ unlines ["---".toList]
            ++ closeMarker [] "note".toList) ∧
      calloutsToShortCodes "docs/style-guide.md".toList "Take care.\n\x7b: .note\x7d\n".toList
        = some "Take care.\n\x7b: .note\x7d\n".toList := by
  decide

/-! ## Callouts: the multi-line form -/

/-- A rune outside a class stays in the text when the leading runes of the class are
dropped. -/
theorem mem_dropWhile_of_not (p : Char → Bool) (x : Char) (l : Str) (hx : x ∈ l)
    (hp : p x = false) : x ∈ l.dropWhile p := by
  induction l with
  | nil => simp at hx
  | cons c l ih =>
    by_cases hc : p c = true
    · simp only [List.dropWhile, hc]
      rcases List.mem_cons.1 hx with h | h
      · rw [h, hc] at hp; exact absurd hp (by simp)
      · exact ih h
    · have hc2 : p c = false := by simpa using hc
      simp only [List.dropWhile, hc2]
      exact hx

/-- A rune that is no space stays in the trimmed text. -/
theorem mem_trimSpace (x : Char) (l : Str) (hx : x ∈ l) (hp : isUnicodeSpace x = false) :
    x ∈ trimSpace l := by
  unfold trimSpace
  rw [List.mem_reverse]
  apply mem_dropWhile_of_not _ _ _ _ hp
  rw [List.mem_reverse]
  exact mem_dropWhile_of_not _ _ _ hx hp

/-- A paragraph boundary carries no callout mark. -/
theorem isCallout_of_isBoundary (l : Str) (h : isBoundary l = true) : isCallout l = false := by
  have hno : contains l "\x7b:".toList = false := by
    cases hc : contains l "\x7b:".toList with
    | false => rfl
    | true =>
      have hin := (contains_iff l _).1 hc
      have hmem : '\x7b' ∈ l := hin.subset (by decide)
      have htrim := mem_trimSpace '\x7b' l hmem (by decide)
      unfold isBoundary at h
      simp only [Bool.or_eq_true, decide_eq_true_eq] at h
      rcases h with h | h
      · rw [h] at htrim; simp at htrim
      · rw [h] at htrim; exact absurd htrim (by decide)
  simp only [isCallout, hno, Bool.false_and]

/-- The loop on two lists of lines, one after the other. -/
theorem scanLoop_append (l1 l2 : List Str) (st : Scan) :
    scanLoop st (l1 ++ l2) = (scanLoop st l1).bind (fun st1 => scanLoop st1 l2) := by
  induction l1 generalizing st with
  | nil => simp [scanLoop]
  | cons l l1 ih =>
    simp only [List.cons_append, scanLoop]
    cases h : scanStep st l with
    | none => simp
    | some st1 => simp [ih]

/-- The turn of the loop on a paragraph boundary: the paragraph is written to the
output, after the closing marker when a span is open, and the loop is at the start
of a paragraph, outside a span. -/
theorem scanStep_boundary (st : Scan) (b : Str) (hb : isBoundary b = true) :
    scanStep st b
      = some { all := st.all ++ (st.current ++ b ++
                 (if st.isOpen then closeMarker st.indent st.shortcode else ['\n']))
               current := []
               pcounter := 0
               indent := st.indent
               shortcode := st.shortcode
               isOpen := false } := by
  have hcall := isCallout_of_isBoundary b hb
  have hzero := (nextCounter_eq_zero_iff st.pcounter b).2 hb
  cases hopen : st.isOpen with
  | true => simp [scanStep, hcall, hzero, hopen]
  | false => simp [scanStep, hcall, hzero, hopen]

/-- After lines that are none or end with a paragraph boundary, the loop is at the
start of a paragraph: the counter is 0, the buffer `current` is empty and no span
is open. -/
theorem scanLoop_paragraph_start (pre : List Str) (st0 : Scan)
    (hstart : pre = [] ∨ ∃ l, pre.getLast? = some l ∧ isBoundary l = true)
    (hloop : scanLoop Scan.init pre = some st0) :
    st0.pcounter = 0 ∧ st0.current = [] ∧ st0.isOpen = false := by
  rcases hstart with hnil | ⟨l, hlast, hb⟩
  · subst hnil
    simp only [scanLoop, Option.some.injEq] at hloop
    subst hloop
    exact ⟨rfl, rfl, rfl⟩
  · obtain ⟨front, hpre⟩ : ∃ front, pre = front ++ [l] := by
      rcases List.eq_nil_or_concat pre with hnil | ⟨front, x, hx⟩
      · rw [hnil] at hlast; simp at hlast
      · rw [hx, List.concat_eq_append, List.getLast?_append] at hlast
        simp at hlast
        exact ⟨front, by rw [hx, List.concat_eq_append, hlast]⟩
    rw [hpre, scanLoop_append] at hloop
    cases h1 : scanLoop Scan.init front with
    | none => simp [h1] at hloop
    | some st1 =>
      simp only [h1, Option.some_bind, scanLoop, scanStep_boundary st1 l hb,
        Option.some.injEq] at hloop
      subst hloop
      exact ⟨rfl, rfl, rfl⟩

/-- The turn of the loop on an annotation line that is the first line of its
paragraph: the opening marker goes to the output and the span is open. -/
theorem scanStep_opens_span (st : Scan) (kind : Str) (hk : IsKind kind)
    (hzero : st.pcounter = 0) :
    scanStep st (annotationLine kind)
      = some { all := st.all ++ openMarker [] kind
               current := st.current
               pcounter := 1
               indent := []
               shortcode := kind
               isOpen := true } := by
  have hfacts : isCallout (annotationLine kind) = true ∧
      isBoundary (annotationLine kind) = false ∧
      (find calloutRe (annotationLine kind)).map (fun f => (f.m.sub 1, f.m.sub 2))
        = some ([], kind) := by
    rcases hk with rfl | rfl | rfl <;> decide
  obtain ⟨hcall, hb, hfind⟩ := hfacts
  have hcount : nextCounter st.pcounter (annotationLine kind) = 1 := by
    unfold nextCounter
    unfold isBoundary at hb
    have : ¬ (trimSpace (annotationLine kind) = [] ∨
        trimSpace (annotationLine kind) = "---".toList) := by
      simpa using hb
    simp only [this, if_false, hzero]
  cases hf : find calloutRe (annotationLine kind) with
  | none => simp [hf] at hfind
  | some f =>
    simp only [hf, Option.map_some', Option.some.injEq, Prod.mk.injEq] at hfind
    simp only [scanStep, hcall, if_true, hcount, hf, hfind.1, hfind.2, not_true_eq_false,
      if_false]

/-- The loop on lines of a paragraph without callout mark, inside or outside a span:
the lines go to the buffer `current`, each with its line feed, and are counted. -/
theorem scanLoop_paragraph_lines (ls rest : List Str) (st : Scan)
    (hls : ∀ l ∈ ls, isBoundary l = false ∧ contains l "\x7b:".toList = false) :
    scanLoop st (ls ++ rest)
      = scanLoop { st with current := st.current ++ unlines ls,
                           pcounter := st.pcounter + ls.length } rest := by
  induction ls generalizing st with
  | nil => simp [unlines]
  | cons l ls ih =>
    obtain ⟨hb, hc⟩ := hls l (by simp)
    have hcall : isCallout l = false := by simp only [isCallout, hc, Bool.false_and]
    have hcount : nextCounter st.pcounter l = st.pcounter + 1 := by
      unfold nextCounter
      unfold isBoundary at hb
      have : ¬ (trimSpace l = [] ∨ trimSpace l = "---".toList) := by
        simpa using hb
      simp only [this, if_false]
    simp only [List.cons_append, scanLoop, scanStep, hcall, hcount]
    simp only [Bool.false_eq_true, if_false, ne_eq, Nat.add_one_ne_zero, not_false_eq_true,
      decide_True, Bool.or_true, if_true]
    show scanLoop _ (ls ++ rest) = _
    rw [ih _ (fun x hx => hls x (by simp [hx]))]
    simp [unlines, Nat.add_assoc, Nat.add_comm 1]

/-- One turn of the loop does not read the buffer `all`, and reads the indent and the
shortcode only inside a span: from two states that differ by a text in front of
`all`, and by the indent and the shortcode outside a span, a turn leads to two such
states. -/
theorem scanStep_shift (front : Str) (st st' t' : Scan) (line : Str)
    (hall : st.all = front ++ st'.all) (hcur : st.current = st'.current)
    (hpc : st.pcounter = st'.pcounter) (hop : st.isOpen = st'.isOpen)
    (hik : st.isOpen = true → st.indent = st'.indent ∧ st.shortcode = st'.shortcode)
    (hstep : scanStep st' line = some t') :
    ∃ t, scanStep st line = some t ∧ t.all = front ++ t'.all ∧ t.current = t'.current ∧
      t.pcounter = t'.pcounter ∧ t.isOpen = t'.isOpen ∧
      (t.isOpen = true → t.indent = t'.indent ∧ t.shortcode = t'.shortcode) := by
  obtain ⟨a, c, n, i, k, o⟩ := st
  obtain ⟨a', c', n', i', k', o'⟩ := st'
  simp only at hall hcur hpc hop hik
  subst hall hcur hpc hop
  by_cases hcall : isCallout line = true
  · cases hf : find calloutRe line with
    | none => simp [scanStep, hcall, hf] at hstep
    | some f =>
      by_cases hstart : nextCounter n line = 1
      · simp only [scanStep, hcall, if_true, hf, hstart, not_true_eq_false, if_false,
          Option.some.injEq] at hstep ⊢
        subst hstep
        exact ⟨_, rfl, by simp, rfl, rfl, rfl, fun _ => ⟨rfl, rfl⟩⟩
      · simp only [scanStep, hcall, if_true, hf, hstart, not_false_eq_true,
          Option.some.injEq] at hstep ⊢
        subst hstep
        exact ⟨_, rfl, by simp, rfl, rfl, rfl, fun _ => ⟨rfl, rfl⟩⟩
  · have hcall2 : isCallout line = false := by simpa using hcall
    by_cases hzero : nextCounter n line = 0
    · cases o with
      | true =>
        obtain ⟨hi, hk⟩ := hik rfl
        subst hi hk
        simp only [scanStep, hcall2, hzero, Bool.false_eq_true, if_false, if_true,
          Option.some.injEq] at hstep ⊢
        subst hstep
        exact ⟨_, rfl, by simp, rfl, rfl, rfl, fun h => by simp at h⟩
      | false =>
        simp only [scanStep, hcall2, hzero, Bool.false_eq_true, if_false, if_true,
          Option.some.injEq] at hstep ⊢
        subst hstep
        exact ⟨_, rfl, by simp, rfl, rfl, rfl, fun h => by simp at h⟩
    · simp only [scanStep, hcall2, hzero, Bool.false_eq_true, if_false,
        Option.some.injEq] at hstep ⊢
      subst hstep
      exact ⟨_, rfl, rfl, rfl, rfl, rfl, hik⟩

/-- The loop does not read the buffer `all`, and reads the indent and the shortcode
only inside a span. -/
theorem scanLoop_shift (front : Str) (ls : List Str) (st st' t' : Scan)
    (hall : st.all = front ++ st'.all) (hcur : st.current = st'.current)
    (hpc : st.pcounter = st'.pcounter) (hop : st.isOpen = st'.isOpen)
    (hik : st.isOpen = true → st.indent = st'.indent ∧ st.shortcode = st'.shortcode)
    (hloop : scanLoop st' ls = some t') :
    ∃ t, scanLoop st ls = some t ∧ t.all = front ++ t'.all ∧ t.current = t'.current := by
  induction ls generalizing st st' with
  | nil =>
    simp only [scanLoop, Option.some.injEq] at hloop ⊢
    subst hloop
    exact ⟨st, rfl, hall, hcur⟩
  | cons l ls ih =>
    simp only [scanLoop] at hloop ⊢
    cases h1 : scanStep st' l with
    | none => simp [h1] at hloop
    | some s1' =>
      rw [h1] at hloop
      obtain ⟨s1, hs1, ha1, hc1, hp1, ho1, hik1⟩ :=
        scanStep_shift front st st' s1' l hall hcur hpc hop hik h1
      rw [hs1]
      exact ih s1 s1' ha1 hc1 hp1 ho1 hik1 hloop

/-- C11, amended: a text with a multi-line callout. Its lines are the lines `pre`,
which are none or end with a blank or `---` line, then the annotation line
`{: .K}` of a callout kind `K`, then the lines `ls` of the paragraph, none of them
blank, a `---` line or a line with `{:`, then a blank line `b`, then the lines
`post`. When the loop gives `before` on the lines `pre` and `after` on the lines
`post`, the output of `calloutsToShortCodes` on a path without `style-guide` is
`before`, the line of the opening marker, the lines of the paragraph in order, the
blank line without line feed and at once the line of the closing marker, and
`after`. -/
theorem calloutsToShortCodes_multi_line (path s : Str) (pre ls post : List Str)
    (kind b before after : Str)
    (hp : contains path "style-guide".toList = false) (hk : IsKind kind)
    (hstart : pre = [] ∨ ∃ l, pre.getLast? = some l ∧ isBoundary l = true)
    (hls : ∀ l ∈ ls, isBoundary l = false ∧ contains l "\x7b:".toList = false)
    (hb : trimSpace b = [])
    (hbefore : linesOutput pre = some before) (hafter : linesOutput post = some after)
    (hs : scanLines s = pre ++ annotationLine kind :: (ls ++ b :: post)) :
    calloutsToShortCodes path s
      = some (before ++ openMarker [] kind ++ unlines ls ++ b ++ closeMarker [] kind
          ++ after) := by
  have hmark : contains (annotationLine kind) "\x7b:".toList = true := by
    rcases hk with rfl | rfl | rfl <;> decide
  have hcont : contains s "\x7b:".toList = true :=
    contains_of_line s (annotationLine kind) _ (by rw [hs]; simp) hmark
  have hbound : isBoundary b = true := by simp [isBoundary, hb]
  -- the lines before
  obtain ⟨st0, hst0, hbef⟩ : ∃ st0, scanLoop Scan.init pre = some st0 ∧
      before = st0.all ++ st0.current := by
    unfold linesOutput at hbefore
    cases h : scanLoop Scan.init pre with
    | none => simp [h] at hbefore
    | some st0 =>
      simp only [h, Option.map_some', Option.some.injEq] at hbefore
      exact ⟨st0, rfl, hbefore.symm⟩
  obtain ⟨h0, hc0, ho0⟩ := scanLoop_paragraph_start pre st0 hstart hst0
  -- the lines after
  obtain ⟨t', ht', haft⟩ : ∃ t', scanLoop Scan.init post = some t' ∧
      after = t'.all ++ t'.current := by
    unfold linesOutput at hafter
    cases h : scanLoop Scan.init post with
    | none => simp [h] at hafter
    | some t' =>
      simp only [h, Option.map_some', Option.some.injEq] at hafter
      exact ⟨t', rfl, hafter.symm⟩
  obtain ⟨t, ht, hta, htc⟩ := scanLoop_shift
    (st0.all ++ openMarker [] kind ++ (st0.current ++ unlines ls ++ b ++ closeMarker [] kind))
    post
    { all := st0.all ++ openMarker [] kind
        ++ (st0.current ++ unlines ls ++ b ++ closeMarker [] kind)
      current := []
      pcounter := 0
      indent := []
      shortcode := kind
      isOpen := false }
    Scan.init t' (by simp [Scan.init]) rfl rfl rfl (fun h => by simp at h) ht'
  unfold calloutsToShortCodes
  simp only [hp, hcont, hs, Bool.false_eq_true, if_false, Bool.not_true]
  rw [scanLoop_append, hst0]
  simp only [Option.some_bind, scanLoop]
  rw [scanStep_opens_span st0 kind hk h0]
  simp only []
  rw [scanLoop_paragraph_lines ls (b :: post) _ hls]
  simp only [scanLoop]
  rw [scanStep_boundary _ b hbound]
  simp only [if_true]
  rw [ht]
  simp only [hta, htc, hbef, haft, hc0, List.append_nil, List.nil_append, List.append_assoc]

/-- C11, amended, at a warning of two lines between a first paragraph and a last
line. -/
theorem calloutsToShortCodes_multi_line_witness :
    calloutsToShortCodes "a.md".toList
        "Intro.\n\n\x7b: .warning\x7d\nDo not do this.\nEver.\n\nNext.\n".toList
      = some ("Intro.\n\n".toList ++ openMarker [] "warning".toList
          ++ unlines ["Do not do this.".toList, "Ever.".toList] ++ []
          ++ closeMarker [] "warning".toList ++ "Next.\n".toList) :=
  calloutsToShortCodes_multi_line "a.md".toList
    "Intro.\n\n\x7b: .warning\x7d\nDo not do this.\nEver.\n\nNext.\n".toList
    ["Intro.".toList, []] ["Do not do this.".toList, "Ever.".toList] ["Next.".toList]
    "warning".toList [] "Intro.\n\n".toList "Next.\n".toList
    (by decide) (by decide) (Or.inr ⟨[], by decide, by decide⟩) (by decide) (by decide)
    (by decide) (by decide) (by decide)

/-- C11, the claim refuted: a note whose paragraph has the three lines `foo`, `---`
and `bar`, none of them blank and none with `{:`, and ends with a blank line. The
`---` line ends the span: the closing marker stands on the line of `---`, before
`bar`, and no closing marker follows `bar`. And on a path with `style-guide` a text
with a multi-line callout is returned as it is. -/
theorem calloutsToShortCodes_delimiter_line_closes_span :
    scanLines "\x7b: .note\x7d\nfoo\n---\nbar\n\n".toList
        = annotationLine "note".toList :: (["foo".toList, "---".toList, "bar".toList] ++ [[]]) ∧
      (∀ l ∈ ["foo".toList, "---".toList, "bar".toList],
        trimSpace l ≠ [] ∧ contains l "\x7b:".toList = false) ∧
      calloutsToShortCodes "a.md".toList "\x7b: .note\x7d\nfoo\n---\nbar\n\n".toList
        = some "\x7b\x7b< note >\x7d\x7d\nfoo\n---\x7b\x7b< /note >\x7d\x7d\nbar\n\n".toList ∧
      calloutsToShortCodes "a.md".toList "\x7b: .note\x7d\nfoo\n---\nbar\n\n".toList
        ≠ some (openMarker [] "note".toList
            ++ unlines ["foo".toList, "---".toList, "bar".toList]
            ++ closeMarker [] "note".toList) ∧
      contains "\x7b\x7b< note >\x7d\x7d\nfoo\n---\x7b\x7b< /note >\x7d\x7d\nbar\n\n".toList
          ("bar\n".toList ++ closeMarker [] "note".toList) = false ∧
      calloutsToShortCodes "docs/style-guide.md".toList "\x7b: .note\x7d\nfoo\n\n".toList
        = some "\x7b: .note\x7d\nfoo\n\n".toList := by
  decide

/-! ## Callouts: a line that the pattern does not match -/

/-- C12: a line with the attribute `{:target="_blank"}` and the word `notes`. The line
passes the annotation test, `calloutRe` does not match it, and
`calloutsToShortCodes` does not return: reading `m[1]` of the nil slice panics. -/
theorem calloutsToShortCodes_panics_on_other_attribute :
    isCallout "See the [release notes](/notes)\x7b:target=\"_blank\"\x7d.".toList = true ∧
      (find calloutRe "See the [release notes](/notes)\x7b:target=\"_blank\"\x7d.".toList).isSome
        = false ∧
      calloutsToShortCodes "a.md".toList
        "See the [release notes](/notes)\x7b:target=\"_blank\"\x7d.\n".toList = none := by
  decide

end K8mc
